import Mathlib

/-!
Verification development for the phockup file placement and transfer pipeline
(`src/phockup.py`).  The POSIX path strings manipulated by the code are
embedded as lists of character codes (`Path := List Nat`, separator `/` = 47,
dot = 46, dash = 45), file contents as byte lists, and the filesystem as an
association list from paths to contents together with the set of created
directories.  The external collaborators `Exif` and `Date` (which are not part
of the transfer pipeline) are embedded as per-file oracles carried in
`FileInfo`.
-/

namespace Phockup

/-- Paths are strings of character codes (POSIX: separator 47 = `/`). -/
abbrev Path := List Nat

/-- File contents, byte for byte. -/
abbrev Content := List Nat

/-- Character codes of a Lean string literal, to write path literals readably. -/
def str (s : String) : Path := s.data.map Char.toNat

/-- ASCII lowercasing of one character code (models `str.lower` on ASCII names). -/
def lowerC (c : Nat) : Nat := if 65 ≤ c ∧ c ≤ 90 then c + 32 else c

/-- `str.lower` over a path, character by character (ASCII fragment). -/
def lower (p : Path) : Path := p.map lowerC

/-- `os.path.basename`: the part of the path after the last separator. -/
def basename (p : Path) : Path := (p.reverse.takeWhile (fun c => decide (c ≠ 47))).reverse

/-- Helper for `splitext`, scanning the reversed path from the end.  `acc` holds
the characters already scanned (in forward order); finding a separator first
means there is no extension, finding a dot splits there provided the basename
part before the dot has some non-dot character (`posixpath.splitext`). -/
def seAux (acc : Path) : Path → Option (Path × Path)
  | [] => none
  | c :: rest =>
    if c = 47 then none
    else if c = 46 then
      if (rest.takeWhile (fun x => decide (x ≠ 47))).any (fun x => decide (x ≠ 46)) then
        some (rest.reverse, 46 :: acc)
      else none
    else seAux (c :: acc) rest

/-- `os.path.splitext`: split off the extension at the last dot of the basename,
treating a basename consisting only of leading dots as having no extension. -/
def splitext (p : Path) : Path × Path :=
  match seAux [] p.reverse with
  | none => (p, [])
  | some r => r

/-- Decimal digits of `n`, least significant first; `fuel` bounds the recursion
(`fuel ≥ n` is always enough). -/
def digAux : Nat → Nat → List Nat
  | 0, _ => []
  | fuel + 1, n => if n = 0 then [] else (n % 10) :: digAux fuel (n / 10)

/-- Decimal rendering of a natural number as character codes (`f'{n}'`). -/
def toDec (n : Nat) : Path :=
  if n = 0 then [48] else ((digAux n n).map (fun d => 48 + d)).reverse

/-- Zero-padded decimal rendering of width `w` (`f'{n:0wd}'`). -/
def pad (w n : Nat) : Path :=
  List.replicate (w - (toDec n).length) 48 ++ toDec n

/-- The candidate destination path tried at loop iteration `k` of
`Phockup.process_file`: iteration 1 uses the natural target path, iteration
`k ≥ 2` uses `f'{base}-{k}{ext}'` with `(base, ext) = splitext(target_file_path)`. -/
def slotPath (tpath : Path) (k : Nat) : Path :=
  if k ≤ 1 then tpath
  else (splitext tpath).1 ++ 45 :: (toDec k ++ (splitext tpath).2)

/-- Coarse media kind returned by `Phockup.get_file_type`. -/
inductive FType where
  | image : FType
  | video : FType
deriving DecidableEq

/-- Result of the external `Date(...).from_exif(...)` collaborator for one file.
`vnone` is an absent date (`date['date']` is `None`, or no date dict at all);
`vsome fmt y mo d h mi s sub` carries the outcome `fmt` of
`date['date'].date().strftime(dir_format)` (`none` models a `ValueError`),
the date-time components used by `get_file_name`, and the `subseconds`
string (`[]` when falsy). -/
inductive DateVal where
  | vnone : DateVal
  | vsome : Option Path → Nat → Nat → Nat → Nat → Nat → Nat → Path → DateVal
deriving DecidableEq

/-- The `strftime(dir_format)` outcome of a date result, `none` on failure or absence. -/
def DateVal.fmtOf : DateVal → Option Path
  | .vnone => none
  | .vsome f _ _ _ _ _ _ _ => f

/-- A file candidate: its source path together with the oracles for the external
metadata collaborators (`Exif(filename).data()['MIMEType']`, absent when the
extraction fails or lacks the field, and the date result). -/
structure FileInfo where
  path : Path
  mime : Option Path
  date : DateVal
deriving DecidableEq

/-- The configuration options of `Phockup.__init__` that the per-file pipeline
reads.  The directory format template is folded into the per-file `DateVal`
oracle (its `strftime` outcome), matching the black-box treatment of date
formatting. -/
structure Config where
  output_dir : Path
  no_date_dir : Path
  move : Bool
  link : Bool
  original_filenames : Bool
  skip_unknown : Bool
  dry_run : Bool
  file_type : Option FType
deriving DecidableEq

/-- Filesystem state: an association list of regular files (newest entry first)
and the list of directories created so far. -/
structure FS where
  files : List (Path × Content)
  dirs : List Path
deriving DecidableEq

/-- Association-list lookup by path (first match wins). -/
def lookupA {β : Type} : List (Path × β) → Path → Option β
  | [], _ => none
  | (k, v) :: r, p => if k = p then some v else lookupA r p

/-- Write a file: the new entry shadows any older one at the same path. -/
def setF (fs : FS) (p : Path) (c : Content) : FS :=
  ⟨(p, c) :: fs.files, fs.dirs⟩

/-- Remove a file (all entries at that path), as `shutil.move` removes its source. -/
def eraseF (fs : FS) (p : Path) : FS :=
  ⟨fs.files.filter (fun e => decide (e.1 ≠ p)), fs.dirs⟩

/-- `os.makedirs(path, exist_ok=True)` guarded by `not os.path.isdir` and
`not self.dry_run`, as in `Phockup.get_output_dir`. -/
def mkdirA (fs : FS) (p : Path) (dry : Bool) : FS :=
  if dry then fs else if p ∈ fs.dirs then fs else ⟨fs.files, p :: fs.dirs⟩

/-- Statistics counters touched by `Phockup.process_file` (deltas of one run). -/
structure Delta where
  processed : Nat
  dup : Nat
  unknown : Nat
  moved : Nat
  copied : Nat
deriving DecidableEq

def Delta.zero : Delta := ⟨0, 0, 0, 0, 0⟩

def Delta.add (a b : Delta) : Delta :=
  ⟨a.processed + b.processed, a.dup + b.dup, a.unknown + b.unknown,
   a.moved + b.moved, a.copied + b.copied⟩

/-- Add the trailing `self.files_processed += 1` of `process_file`. -/
def Delta.addProcessed (a : Delta) : Delta :=
  ⟨a.processed + 1, a.dup, a.unknown, a.moved, a.copied⟩

/-- How one `process_file` call ended: early return on a `.xmp` primary, the two
skip breaks, a duplicate break at slot `k`, a completed transfer at slot `k`,
a caught `FileNotFoundError` (source vanished) at slot `k`, or an uncaught
exception escaping the call. -/
inductive Outcome where
  | xmpSkip : Outcome
  | typeSkip : Outcome
  | unknownSkip : Outcome
  | dup : Nat → Outcome
  | transferred : Nat → Outcome
  | vanished : Nat → Outcome
  | raised : Outcome
deriving DecidableEq

/-- `Phockup.get_file_type`: classify a MIME type string; `image/.+` or the
Adobe Photoshop vendor type is an image, `video/.*` a video, anything else
none.  (The `re` subtleties around newlines are not modelled.) -/
def get_file_type (m : Path) : Option FType :=
  if ((str "image/").isPrefixOf m && decide (7 ≤ m.length))
      || decide (m = str "application/vnd.adobe.photoshop") then some .image
  else if (str "video/").isPrefixOf m then some .video
  else none

/-- `Phockup.get_output_dir`: join output root with the `strftime` result, or
with the no-date directory when the date is absent or formatting raised; create
the directory eagerly unless in dry-run. -/
def get_output_dir (cfg : Config) (fs : FS) (d : DateVal) : FS × Path :=
  let fullpath :=
    match d.fmtOf with
    | none => cfg.output_dir ++ 47 :: cfg.no_date_dir
    | some f => cfg.output_dir ++ 47 :: f
  (mkdirA fs fullpath cfg.dry_run, fullpath)

/-- `Phockup.get_file_name`: the original basename when original filenames are
requested or the date is absent (the caught `TypeError`), otherwise the
synthesized `YYYYmmdd-HHMMSS[subseconds]` name with the original extension. -/
def get_file_name (cfg : Config) (orig : Path) (d : DateVal) : Path :=
  if cfg.original_filenames then basename orig
  else
    match d with
    | .vnone => basename orig
    | .vsome _ y mo dd h mi s sub =>
        pad 4 y ++ pad 2 mo ++ pad 2 dd ++ 45 ::
          (pad 2 h ++ pad 2 mi ++ pad 2 s ++ sub ++ (splitext orig).2)

/-- Result record of `Phockup.get_file_name_and_path`. -/
structure NP where
  fs : FS
  output : Path
  name : Path
  tpath : Path
  ftype : Option FType

/-- `Phockup.get_file_name_and_path`: classify by MIME type; media files get the
date-derived directory and name (lowercased unless original filenames are
kept), others go to the fallback directory under their original basename. -/
def get_file_name_and_path (cfg : Config) (fi : FileInfo) (fs : FS) : NP :=
  let ftype := match fi.mime with
    | none => none
    | some m => get_file_type m
  match ftype with
  | some t =>
      let od := get_output_dir cfg fs fi.date
      let nm0 := get_file_name cfg fi.path fi.date
      let nm := if cfg.original_filenames then nm0 else lower nm0
      ⟨od.1, od.2, nm, od.2 ++ 47 :: nm, some t⟩
  | none =>
      let od := get_output_dir cfg fs DateVal.vnone
      let nm := basename fi.path
      ⟨od.1, od.2, nm, od.2 ++ 47 :: nm, none⟩

/-- The suffix inserted into sidecar names: `f'-{suffix}' if suffix > 1 else ''`. -/
def sfxOf (k : Nat) : Path := if 1 < k then 45 :: toDec k else []

/-- Insert or overwrite a key in an insertion-ordered dictionary (Python `dict`). -/
def upsertA {β : Type} (l : List (Path × β)) (k : Path) (v : β) : List (Path × β) :=
  if l.any (fun e => decide (e.1 = k)) then
    l.map (fun e => if e.1 = k then (k, v) else e)
  else l ++ [(k, v)]

/-- `Phockup.process_xmp`: locate the two fixed sidecar derivations of the
original path, and transfer each existing one into `output` under the primary
name with the primary's suffix, with the configured action (link shares the
content like copy in this byte-level model; a sidecar source vanishing between
its `isfile` check and its transfer is not modelled and leaves the state
unchanged). -/
def process_xmp (cfg : Config) (fs : FS) (orig nm : Path) (k : Nat) (output : Path) : FS :=
  let s := sfxOf k
  let we := orig ++ str ".xmp"
  let wo := (splitext orig).1 ++ str ".xmp"
  let d0 : List (Path × Path) :=
    if (lookupA fs.files we).isSome then [(we, nm ++ s ++ str ".xmp")] else []
  let d1 : List (Path × Path) :=
    if (lookupA fs.files wo).isSome then upsertA d0 wo ((splitext nm).1 ++ s ++ str ".xmp")
    else d0
  d1.foldl (fun g ot =>
    let xp := output ++ 47 :: ot.2
    if cfg.dry_run then g
    else if cfg.move then
      match lookupA g.files ot.1 with
      | some c => setF (eraseF g ot.1) xp c
      | none => g
    else
      match lookupA g.files ot.1 with
      | some c => setF g xp c
      | none => g) fs

def dProc : Delta := ⟨1, 0, 0, 0, 0⟩
def dUnk : Delta := ⟨1, 0, 1, 0, 0⟩
def dDup : Delta := ⟨0, 1, 0, 0, 0⟩
def dMoved : Delta := ⟨0, 0, 0, 1, 0⟩
def dCopied : Delta := ⟨0, 0, 0, 0, 1⟩

/-- The transfer branch of `process_file` at the free slot `t = slotPath tpath k`:
move increments `files_moved` before attempting (a vanished source is caught),
link performs no counting and an error it raises is uncaught, copy (also the
dry-run link case, which falls into the copy else-branch) increments
`files_copied` before attempting; a successful or dry-run transfer then
processes the sidecars with the same suffix. -/
def placeAt (cfg : Config) (fi : FileInfo) (output nm t : Path) (fs : FS) (k : Nat) :
    FS × Delta × Outcome :=
  if cfg.move then
    if cfg.dry_run then (process_xmp cfg fs fi.path nm k output, dMoved, .transferred k)
    else
      match lookupA fs.files fi.path with
      | none => (fs, dMoved, .vanished k)
      | some c =>
          (process_xmp cfg (setF (eraseF fs fi.path) t c) fi.path nm k output,
           dMoved, .transferred k)
  else if cfg.link && !cfg.dry_run then
    match lookupA fs.files fi.path with
    | none => (fs, Delta.zero, .raised)
    | some c => (process_xmp cfg (setF fs t c) fi.path nm k output, Delta.zero, .transferred k)
  else
    if cfg.dry_run then (process_xmp cfg fs fi.path nm k output, dCopied, .transferred k)
    else
      match lookupA fs.files fi.path with
      | none => (fs, dCopied, .vanished k)
      | some c => (process_xmp cfg (setF fs t c) fi.path nm k output, dCopied, .transferred k)

/-- The `while True` collision loop of `process_file`, from iteration `k` on:
an occupied slot that is a different path with byte-identical content is a
duplicate break; an occupied slot equal to the source path, or with differing
content, advances the suffix; comparing against a vanished source raises an
uncaught `FileNotFoundError`; a free slot transfers.  `fuel` only bounds the
recursion; `process_file` passes enough fuel for the loop to reach a free slot. -/
def procLoop (cfg : Config) (fi : FileInfo) (output nm tpath : Path) (fs : FS) :
    Nat → Nat → Option (FS × Delta × Outcome)
  | _, 0 => none
  | k, fuel + 1 =>
    let t := slotPath tpath k
    match lookupA fs.files t with
    | none => some (placeAt cfg fi output nm t fs k)
    | some c =>
      if fi.path = t then procLoop cfg fi output nm tpath fs (k + 1) fuel
      else
        match lookupA fs.files fi.path with
        | none => some (fs, Delta.zero, .raised)
        | some sc =>
          if c = sc then some (fs, dDup, .dup k)
          else procLoop cfg fi output nm tpath fs (k + 1) fuel

/-- `Phockup.process_file`: skip `.xmp` primaries, derive the target, apply the
media-type filter and the skip-unknown policy (loop-invariant conditions that
the source revisits each iteration), then run the collision loop; every exit
except an early `.xmp` return or an uncaught exception counts the file as
processed. -/
def process_file (cfg : Config) (fi : FileInfo) (fs : FS) : FS × Delta × Outcome :=
  if (str ".xmp").isSuffixOf fi.path then (fs, Delta.zero, .xmpSkip)
  else
    let np := get_file_name_and_path cfg fi fs
    if cfg.file_type.isSome && !(decide (cfg.file_type = np.ftype)) then
      (np.fs, dProc, .typeSkip)
    else if cfg.skip_unknown && cfg.no_date_dir.isSuffixOf np.output then
      (np.fs, dUnk, .unknownSkip)
    else
      match procLoop cfg fi np.output np.name np.tpath np.fs 1 (np.fs.files.length + 1) with
      | some r => if r.2.2 = Outcome.raised then r else (r.1, r.2.1.addProcessed, r.2.2)
      | none => (np.fs, Delta.zero, .raised)

/-- Serial processing of a batch of file candidates (`max_concurrency = 1`); an
uncaught exception aborts the remainder of the run. -/
def processAll (cfg : Config) : List FileInfo → FS → FS × Delta × List Outcome
  | [], fs => (fs, Delta.zero, [])
  | fi :: rest, fs =>
    let r := process_file cfg fi fs
    if r.2.2 = Outcome.raised then (r.1, r.2.1, [Outcome.raised])
    else
      let r2 := processAll cfg rest r.1
      (r2.1, Delta.add r.2.1 r2.2.1, r.2.2 :: r2.2.2)

/-- Scan for the closing `]` of an `fnmatch` character class, returning the class
body and the remainder of the pattern. -/
def findClose (acc : Path) : Path → Option (Path × Path)
  | [] => none
  | c :: r => if c = 93 then some (acc.reverse, r) else findClose (c :: acc) r

/-- Parse an `fnmatch` character class after the opening `[`: an optional `!`
negation, then a body in which a leading `]` is a literal member; an unclosed
class makes the `[` a literal character (`fnmatch.translate`). -/
def parseClass (ps : Path) : Option (Bool × Path × Path) :=
  let neg := match ps with
    | 33 :: _ => true
    | _ => false
  let ps1 := match ps with
    | 33 :: r => r
    | _ => ps
  match ps1 with
  | 93 :: r => (findClose [93] r).map (fun br => (neg, br.1, br.2))
  | _ => (findClose [] ps1).map (fun br => (neg, br.1, br.2))

/-- Membership of a character in a class body: `x-y` ranges (a reversed range is
empty) and literal members. -/
def classMatch : Path → Nat → Bool
  | x :: 45 :: y :: rest, c => (decide (x ≤ c) && decide (c ≤ y)) || classMatch rest c
  | x :: rest, c => decide (x = c) || classMatch rest c
  | [], _ => false

/-- Fuelled `fnmatch.fnmatch` core: `*` matches any run, `?` any one character,
`[...]` a class, other characters literally; each recursive call shortens
pattern plus string, so `process_file`-style fuel of their combined length
suffices. -/
def gmatchF : Nat → Path → Path → Bool
  | 0, _, _ => false
  | _ + 1, [], [] => true
  | _ + 1, [], _ :: _ => false
  | fuel + 1, 42 :: ps, s =>
      gmatchF fuel ps s ||
        (match s with
         | [] => false
         | _ :: s' => gmatchF fuel (42 :: ps) s')
  | _ + 1, 63 :: _, [] => false
  | fuel + 1, 63 :: ps, _ :: s => gmatchF fuel ps s
  | fuel + 1, 91 :: ps, s =>
      (match parseClass ps with
       | none =>
         match s with
         | [] => false
         | c :: s' => decide (c = 91) && gmatchF fuel ps s'
       | some (neg, body, rest) =>
         match s with
         | [] => false
         | c :: s' => (neg != classMatch body c) && gmatchF fuel rest s')
  | fuel + 1, p :: ps, c :: s => decide (p = c) && gmatchF fuel ps s
  | _ + 1, _ :: _, [] => false

/-- `fnmatch.fnmatch` on POSIX (where `normcase` is the identity). -/
def gmatch (pat s : Path) : Bool := gmatchF (pat.length + s.length + 1) pat s

/-- `fnmatch.filter(files, pattern)`: the files matching the pattern, in order. -/
def fnfilter (files : List Path) (pat : Path) : List Path :=
  files.filter (fun f => gmatch pat f)

/-- `filter_files`: per pattern, extend the excluded list with the matches and
record how many files that pattern matched. -/
def filter_files (files : List Path) (pats : List Path) : List Path × List (Path × Nat) :=
  pats.foldl (fun acc pat =>
    let m := fnfilter files pat
    (acc.1 ++ m, upsertA acc.2 pat m.length)) ([], [])

/-- `exclude_files`: the surviving files (those not in the excluded list), the
length of the excluded list (with multiplicity across patterns), and the
per-pattern counts. -/
def exclude_files (files : List Path) (pats : List Path) :
    List Path × Nat × List (Path × Nat) :=
  let fe := filter_files files pats
  (files.filter (fun f => decide (f ∉ fe.1)), fe.1.length, fe.2)

mutual
/-- A directory of the input tree: its (already sorted) file names and subdirectories. -/
inductive DTree where
  | node : List Path → DForest → DTree

/-- Subdirectories: name (relative, separator-free for a real `os.walk`) and subtree. -/
inductive DForest where
  | fnil : DForest
  | fcons : Path → DTree → DForest → DForest
end

mutual
/-- The batches `(root, files)` that `Phockup.walk_directory` hands to the
processing stage: every visited directory emits its own batch first, and when
`root.count(os.sep) >= self.stop_depth` its subdirectory list is cleared
(`del dirnames[:]`), pruning all recursion below it. -/
def walkT (stop : Nat) (root : Path) : DTree → List (Path × List Path)
  | .node fls sub =>
    (root, fls) :: (if stop ≤ root.count 47 then [] else walkF stop root sub)

/-- Walk each subdirectory of `root` in turn (`os.walk` top-down order). -/
def walkF (stop : Nat) (root : Path) : DForest → List (Path × List Path)
  | .fnil => []
  | .fcons nm t rest => walkT stop (root ++ 47 :: nm) t ++ walkF stop root rest
end

mutual
/-- All subdirectory names in the tree are separator-free, as `os.walk` yields them. -/
def namesOkT : DTree → Bool
  | .node _ sub => namesOkF sub

def namesOkF : DForest → Bool
  | .fnil => true
  | .fcons nm t rest => !(nm.contains 47) && namesOkT t && namesOkF rest
end

/-! ### Basic list lemmas -/

theorem take_app_le {α : Type} : ∀ (a b : List α) (n : Nat), n ≤ a.length →
    (a ++ b).take n = a.take n := by
  intro a
  induction a with
  | nil => intro b n h; simp at h; simp [h]
  | cons x xs ih =>
    intro b n h
    cases n with
    | zero => simp
    | succ m => simp only [List.cons_append, List.take_succ_cons]
                rw [ih b m (by simpa using h)]

theorem drop_app_le {α : Type} : ∀ (a b : List α) (n : Nat), n ≤ a.length →
    (a ++ b).drop n = a.drop n ++ b := by
  intro a
  induction a with
  | nil => intro b n h; simp at h; simp [h]
  | cons x xs ih =>
    intro b n h
    cases n with
    | zero => simp
    | succ m => simp only [List.cons_append, List.drop_succ_cons]
                exact ih b m (by simpa using h)

theorem nodup_sub_length {α : Type} [DecidableEq α] :
    ∀ (l₁ l₂ : List α), l₁.Nodup → (∀ x ∈ l₁, x ∈ l₂) → l₁.length ≤ l₂.length := by
  intro l₁
  induction l₁ with
  | nil => intro l₂ _ _; simp
  | cons a t ih =>
    intro l₂ hnd hsub
    have ha : a ∈ l₂ := hsub a (by simp)
    have hnd' : t.Nodup := hnd.of_cons
    have hsub' : ∀ x ∈ t, x ∈ l₂.erase a := by
      intro x hx
      have hne : x ≠ a := by
        intro he; subst he; exact (List.nodup_cons.mp hnd).1 hx
      exact (List.mem_erase_of_ne hne).mpr (hsub x (by simp [hx]))
    have := ih (l₂.erase a) hnd' hsub'
    have hl := List.length_erase_of_mem ha
    have : t.length ≤ l₂.length - 1 := by omega
    have hpos : 1 ≤ l₂.length := List.length_pos.mpr (by rintro rfl; simp at ha)
    simp only [List.length_cons]
    omega

theorem lookupA_mem {β : Type} :
    ∀ (l : List (Path × β)) (p : Path) (c : β), lookupA l p = some c →
      p ∈ l.map Prod.fst := by
  intro l
  induction l with
  | nil => intro p c h; simp [lookupA] at h
  | cons e r ih =>
    intro p c h
    obtain ⟨k, v⟩ := e
    simp only [lookupA] at h
    by_cases he : k = p
    · simp [he]
    · simp only [he, if_false] at h
      simp [ih p c h]

theorem lookupA_append {β : Type} :
    ∀ (l₁ l₂ : List (Path × β)) (p : Path),
      lookupA (l₁ ++ l₂) p =
        (match lookupA l₁ p with | some c => some c | none => lookupA l₂ p) := by
  intro l₁
  induction l₁ with
  | nil => intro l₂ p; simp [lookupA]
  | cons e r ih =>
    intro l₂ p
    obtain ⟨k, v⟩ := e
    by_cases he : k = p <;> simp [lookupA, he, ih]

/-! ### Decimal rendering -/

/-- Decode little-endian decimal digit lists, inverse of `digAux`. -/
def ofDig : List Nat → Nat
  | [] => 0
  | d :: r => d + 10 * ofDig r

theorem digAux_spec : ∀ (fuel n : Nat), n ≤ fuel → ofDig (digAux fuel n) = n := by
  intro fuel
  induction fuel with
  | zero => intro n h; simp at h; simp [h, digAux, ofDig]
  | succ f ih =>
    intro n h
    by_cases h0 : n = 0
    · simp [digAux, h0, ofDig]
    · have hdiv : n / 10 < n := Nat.div_lt_self (by omega) (by omega)
      simp only [digAux, h0, if_false, ofDig]
      rw [ih (n / 10) (by omega)]
      omega

theorem map_dec_enc : ∀ l : List Nat,
    (l.map (fun d => 48 + d)).map (fun c => c - 48) = l := by
  intro l
  induction l with
  | nil => simp
  | cons d r ih => simp [ih]

theorem toDec_decode : ∀ n, ofDig (((toDec n).reverse).map (fun c => c - 48)) = n := by
  intro n
  unfold toDec
  by_cases h0 : n = 0
  · simp [h0, ofDig]
  · simp only [h0, if_false, List.reverse_reverse]
    rw [map_dec_enc]
    exact digAux_spec n n (Nat.le_refl n)

theorem toDec_inj {m n : Nat} (h : toDec m = toDec n) : m = n := by
  have h1 := toDec_decode m
  have h2 := toDec_decode n
  rw [h] at h1
  rw [h1] at h2
  exact h2

theorem toDec_ne_nil : ∀ n, toDec n ≠ [] := by
  intro n
  unfold toDec
  by_cases h0 : n = 0
  · simp [h0]
  · cases n with
    | zero => exact absurd rfl h0
    | succ f => simp [h0, digAux]

/-! ### splitext facts -/

theorem seAux_concat : ∀ (r acc b e : Path), seAux acc r = some (b, e) →
    b ++ e = r.reverse ++ acc := by
  intro r
  induction r with
  | nil => intro acc b e h; simp [seAux] at h
  | cons c rest ih =>
    intro acc b e h
    simp only [seAux] at h
    by_cases h47 : c = 47
    · rw [if_pos h47] at h; exact absurd h (by simp)
    rw [if_neg h47] at h
    by_cases h46 : c = 46
    · rw [if_pos h46] at h
      by_cases hany : ((rest.takeWhile (fun x => decide (x ≠ 47))).any
          (fun x => decide (x ≠ 46))) = true
      · rw [if_pos hany] at h
        injection h with h1
        simp only [Prod.mk.injEq] at h1
        obtain ⟨hb, he⟩ := h1
        subst hb; subst he; subst h46
        simp [List.reverse_cons, List.append_assoc]
      · rw [if_neg hany] at h; exact absurd h (by simp)
    · rw [if_neg h46] at h
      have := ih (c :: acc) b e h
      rw [this]
      simp [List.reverse_cons, List.append_assoc]

theorem splitext_concat (p : Path) : (splitext p).1 ++ (splitext p).2 = p := by
  unfold splitext
  rcases hse : seAux [] p.reverse with _ | ⟨b, e⟩
  · simp
  · have := seAux_concat p.reverse [] b e hse
    simpa using this

theorem seAux_no_sep : ∀ (r acc : Path), (∀ x ∈ acc, x ≠ 47) →
    ∀ b e, seAux acc r = some (b, e) → ∀ x ∈ e, x ≠ 47 := by
  intro r
  induction r with
  | nil => intro acc _ b e h; simp [seAux] at h
  | cons c rest ih =>
    intro acc hacc b e h
    simp only [seAux] at h
    by_cases h47 : c = 47
    · rw [if_pos h47] at h; exact absurd h (by simp)
    rw [if_neg h47] at h
    by_cases h46 : c = 46
    · rw [if_pos h46] at h
      by_cases hany : ((rest.takeWhile (fun x => decide (x ≠ 47))).any
          (fun x => decide (x ≠ 46))) = true
      · rw [if_pos hany] at h
        injection h with h1
        simp only [Prod.mk.injEq] at h1
        obtain ⟨_, he⟩ := h1
        subst he
        intro x hx
        rcases List.mem_cons.mp hx with h1 | h2
        · omega
        · exact hacc x h2
      · rw [if_neg hany] at h; exact absurd h (by simp)
    · rw [if_neg h46] at h
      refine ih (c :: acc) ?_ b e h
      intro x hx
      rcases List.mem_cons.mp hx with h1 | h2
      · subst h1; exact h47
      · exact hacc x h2

theorem splitext_no_sep (p : Path) : ∀ x ∈ (splitext p).2, x ≠ 47 := by
  unfold splitext
  rcases hse : seAux [] p.reverse with _ | ⟨b, e⟩
  · simp
  · exact seAux_no_sep p.reverse [] (by simp) b e hse

/-! ### Slot paths -/

theorem slotPath_one (tp : Path) : slotPath tp 1 = tp := by simp [slotPath]

theorem slotPath_inj (tp : Path) : ∀ j k, 1 ≤ j → 1 ≤ k →
    slotPath tp j = slotPath tp k → j = k := by
  have hlen : ∀ m, 1 ≤ (toDec m).length :=
    fun m => List.length_pos.mpr (toDec_ne_nil m)
  have hconc := splitext_concat tp
  intro j k hj hk h
  unfold slotPath at h
  by_cases h1 : j ≤ 1 <;> by_cases h2 : k ≤ 1
  · omega
  · exfalso
    simp only [h1, if_true, h2, if_false] at h
    have := congrArg List.length h
    have hc := congrArg List.length hconc
    simp only [List.length_append, List.length_cons] at this hc
    have := hlen k
    omega
  · exfalso
    simp only [h1, if_false, h2, if_true] at h
    have := congrArg List.length h
    have hc := congrArg List.length hconc
    simp only [List.length_append, List.length_cons] at this hc
    have := hlen j
    omega
  · simp only [h1, if_false, h2, if_false] at h
    have h3 : 45 :: (toDec j ++ (splitext tp).2) = 45 :: (toDec k ++ (splitext tp).2) :=
      List.append_cancel_left h
    have h4 : toDec j ++ (splitext tp).2 = toDec k ++ (splitext tp).2 := by
      injection h3
    have h5 : toDec j = toDec k := List.append_cancel_right h4
    exact toDec_inj h5

theorem free_slot (fs : FS) (tp : Path) :
    ∃ j, 1 ≤ j ∧ j ≤ fs.files.length + 1 ∧ lookupA fs.files (slotPath tp j) = none := by
  by_contra hcon
  push_neg at hcon
  have hocc : ∀ j, 1 ≤ j → j ≤ fs.files.length + 1 →
      slotPath tp j ∈ fs.files.map Prod.fst := by
    intro j h1 h2
    rcases hl : lookupA fs.files (slotPath tp j) with _ | c
    · exact absurd hl (hcon j h1 h2)
    · exact lookupA_mem _ _ _ hl
  have hinj : Function.Injective (fun i : Nat => slotPath tp (i + 1)) := by
    intro a b hab
    have := slotPath_inj tp (a + 1) (b + 1) (by omega) (by omega) hab
    omega
  have hnd : ((List.range (fs.files.length + 1)).map
      (fun i => slotPath tp (i + 1))).Nodup :=
    (List.nodup_range _).map hinj
  have hsub : ∀ x ∈ (List.range (fs.files.length + 1)).map
      (fun i => slotPath tp (i + 1)), x ∈ fs.files.map Prod.fst := by
    intro x hx
    rcases List.mem_map.mp hx with ⟨i, hi, rfl⟩
    have hi' := List.mem_range.mp hi
    exact hocc (i + 1) (by omega) (by omega)
  have := nodup_sub_length _ _ hnd hsub
  simp at this

/-! ### Output-tree separation: paths under the output root -/

/-- `pre` is a leading segment of `p`. -/
def pfxP (pre p : Path) : Prop := ∃ t, p = pre ++ t

/-- The output-root marker: every path the pipeline writes begins with
`output_dir` followed by a separator. -/
def oPre (cfg : Config) : Path := cfg.output_dir ++ [47]

theorem isPrefixOf_iff : ∀ (pre p : Path), pre.isPrefixOf p = true ↔ pfxP pre p := by
  intro pre
  induction pre with
  | nil =>
    intro p
    constructor
    · intro _; exact ⟨p, rfl⟩
    · intro _; simp [List.isPrefixOf]
  | cons a pr ih =>
    intro p
    cases p with
    | nil =>
      constructor
      · intro h; simp [List.isPrefixOf] at h
      · rintro ⟨t, ht⟩; simp at ht
    | cons b q =>
      constructor
      · intro h
        simp only [List.isPrefixOf, Bool.and_eq_true, beq_iff_eq] at h
        obtain ⟨hab, hq⟩ := h
        obtain ⟨t, ht⟩ := (ih q).mp hq
        exact ⟨t, by simp [hab, ht]⟩
      · rintro ⟨t, ht⟩
        simp only [List.cons_append, List.cons.injEq] at ht
        obtain ⟨hb, hq⟩ := ht
        simp only [List.isPrefixOf, Bool.and_eq_true, beq_iff_eq]
        exact ⟨hb.symm, (ih q).mpr ⟨t, hq⟩⟩

theorem pfx_ext {pre p : Path} (h : pfxP pre p) (q : Path) : pfxP pre (p ++ q) := by
  obtain ⟨t, rfl⟩ := h
  exact ⟨t ++ q, by simp⟩

theorem pfx_trans {a b c : Path} (h1 : pfxP a b) (h2 : pfxP b c) : pfxP a c := by
  obtain ⟨t, rfl⟩ := h1
  obtain ⟨s, rfl⟩ := h2
  exact ⟨t ++ s, by simp⟩

/-- Splitting lemma: a prefix ending in the separator that reaches into `b ++ e`
where `e` is separator-free must already be a prefix of `b`. -/
theorem pfx_split {od b e : Path} (he : ∀ x ∈ e, x ≠ 47)
    (h : pfxP (od ++ [47]) (b ++ e)) : pfxP (od ++ [47]) b := by
  obtain ⟨t, ht⟩ := h
  by_cases hl : od.length + 1 ≤ b.length
  · refine ⟨b.drop (od.length + 1), ?_⟩
    have h1 : (b ++ e).take (od.length + 1) = b.take (od.length + 1) :=
      take_app_le b e _ hl
    have h2 : ((od ++ [47]) ++ t).take (od.length + 1) = od ++ [47] := by
      have : (od ++ [47]).length = od.length + 1 := by simp
      rw [take_app_le (od ++ [47]) t _ (by omega), List.take_of_length_le (by omega)]
    rw [ht] at h1
    rw [h2] at h1
    conv_lhs => rw [← List.take_append_drop (od.length + 1) b]
    rw [← h1]
  · exfalso
    have hb : b.length ≤ od.length := by omega
    have h1 : (b ++ e).drop b.length = ((od ++ [47]) ++ t).drop b.length :=
      congrArg (List.drop b.length) ht
    rw [drop_app_le b e _ (Nat.le_refl _), List.drop_of_length_le (Nat.le_refl _),
        drop_app_le (od ++ [47]) t _ (by simp; omega),
        drop_app_le od [47] _ hb] at h1
    have h47 : (47 : Nat) ∈ od.drop b.length ++ [47] := by simp
    simp only [List.nil_append] at h1
    have : (47 : Nat) ∈ e := by
      rw [h1]
      exact List.mem_append.mpr (Or.inl h47)
    exact he 47 this rfl

theorem pfx_not_ext {od p q : Path} (hq : ∀ x ∈ q, x ≠ 47)
    (h : ¬ pfxP (od ++ [47]) p) : ¬ pfxP (od ++ [47]) (p ++ q) :=
  fun hc => h (pfx_split hq hc)

/-! ### Small state lemmas -/

theorem mkdirA_files (fs : FS) (p : Path) (d : Bool) : (mkdirA fs p d).files = fs.files := by
  unfold mkdirA
  by_cases hd : d = true
  · simp [hd]
  · simp only [Bool.not_eq_true] at hd
    subst hd
    by_cases hp : p ∈ fs.dirs <;> simp [hp]

theorem mkdirA_dirs_sub (fs : FS) (p : Path) (d : Bool) :
    ∀ q ∈ fs.dirs, q ∈ (mkdirA fs p d).dirs := by
  intro q hq
  unfold mkdirA
  by_cases hd : d = true
  · simp [hd, hq]
  · simp only [Bool.not_eq_true] at hd
    subst hd
    by_cases hp : p ∈ fs.dirs <;> simp [hp, hq]

theorem mkdirA_mem (fs : FS) (p : Path) : p ∈ (mkdirA fs p false).dirs := by
  unfold mkdirA
  by_cases hp : p ∈ fs.dirs <;> simp [hp]

theorem mkdirA_of_mem (fs : FS) (p : Path) (d : Bool) (h : p ∈ fs.dirs) :
    mkdirA fs p d = fs := by
  unfold mkdirA
  by_cases hd : d = true
  · simp [hd]
  · simp only [Bool.not_eq_true] at hd
    subst hd
    simp [h]

theorem lookupA_setF (fs : FS) (p : Path) (c : Content) (q : Path) :
    lookupA (setF fs p c).files q = if p = q then some c else lookupA fs.files q := by
  simp [setF, lookupA]

theorem lookupA_eraseF (fs : FS) (p q : Path) :
    lookupA (eraseF fs p).files q = if q = p then none else lookupA fs.files q := by
  show lookupA (fs.files.filter _) q = _
  induction fs.files with
  | nil => by_cases h : q = p <;> simp [lookupA, h]
  | cons e r ih =>
    obtain ⟨k, v⟩ := e
    simp only [List.filter_cons]
    by_cases hkp : k = p
    · have hcond : (decide ((k, v).1 ≠ p)) = false := by simp [hkp]
      rw [hcond]
      simp only [Bool.false_eq_true, if_false]
      rw [ih]
      by_cases hq : q = p
      · simp [hq]
      · have hkq : ¬ (k = q) := by rw [hkp]; exact fun h => hq h.symm
        simp [lookupA, hq, hkq]
    · have hcond : (decide ((k, v).1 ≠ p)) = true := by simp [hkp]
      rw [hcond]
      simp only [if_true]
      by_cases hkq : k = q
      · have hq : ¬ (q = p) := by rw [← hkq]; exact fun h => hkp h
        simp [lookupA, hkq, hq]
      · simp only [lookupA, hkq, if_false]
        rw [ih]

/-! ### Collision loop characterization -/

/-- Slot `j` stops the collision loop: it is free, or it holds content
byte-identical to the source at a different path (a duplicate). -/
def goodAt (fl : List (Path × Content)) (src : Path) (sc : Content) (tp : Path) (j : Nat) : Prop :=
  lookupA fl (slotPath tp j) = none ∨
  (slotPath tp j ≠ src ∧ lookupA fl (slotPath tp j) = some sc)

/-- What the loop produces when it stops at slot `km`: transfer on a free slot,
duplicate on an occupied one. -/
def loopResult (cfg : Config) (fi : FileInfo) (output nm tp : Path) (fs : FS) (km : Nat) :
    FS × Delta × Outcome :=
  match lookupA fs.files (slotPath tp km) with
  | none => placeAt cfg fi output nm (slotPath tp km) fs km
  | some _ => (fs, dDup, .dup km)

theorem procLoop_find (cfg : Config) (fi : FileInfo) (output nm tp : Path) (fs : FS)
    (sc : Content) (hsrc : lookupA fs.files fi.path = some sc) :
    ∀ (fuel k : Nat), 1 ≤ k →
      (∃ j, k ≤ j ∧ j < k + fuel ∧ goodAt fs.files fi.path sc tp j) →
      ∃ km, k ≤ km ∧ goodAt fs.files fi.path sc tp km ∧
        (∀ j, k ≤ j → j < km → ¬ goodAt fs.files fi.path sc tp j) ∧
        procLoop cfg fi output nm tp fs k fuel =
          some (loopResult cfg fi output nm tp fs km) := by
  intro fuel
  induction fuel with
  | zero =>
    rintro k hk ⟨j, hj1, hj2, -⟩
    omega
  | succ f ih =>
    intro k hk hex
    by_cases hg : goodAt fs.files fi.path sc tp k
    · refine ⟨k, Nat.le_refl k, hg, by intro j h1 h2; omega, ?_⟩
      rcases hg with hfree | ⟨hne, hdup⟩
      · simp [procLoop, hfree, loopResult]
      · have hne' : ¬ (fi.path = slotPath tp k) := fun h => hne h.symm
        simp [procLoop, hdup, hne', hsrc, loopResult]
    · have hocc : ∃ c, lookupA fs.files (slotPath tp k) = some c := by
        rcases hl : lookupA fs.files (slotPath tp k) with _ | c
        · exact absurd (Or.inl hl) hg
        · exact ⟨c, rfl⟩
      obtain ⟨c, hc⟩ := hocc
      have hcase : fi.path = slotPath tp k ∨ c ≠ sc := by
        by_contra hcc
        push_neg at hcc
        refine hg (Or.inr ⟨fun h => hcc.1 h.symm, ?_⟩)
        rw [hc, hcc.2]
      have hstep : procLoop cfg fi output nm tp fs k (f + 1) =
          procLoop cfg fi output nm tp fs (k + 1) f := by
        rcases hcase with heq | hcne
        · simp [procLoop, hc, heq]
        · have hne' : ¬ (fi.path = slotPath tp k) := by
            intro h
            rw [h] at hsrc
            rw [hsrc] at hc
            exact hcne (Option.some.inj hc).symm
          simp [procLoop, hc, hne', hsrc, hcne]
      obtain ⟨j, hj1, hj2, hjg⟩ := hex
      have hjk : j ≠ k := fun he => hg (he ▸ hjg)
      obtain ⟨km, h1, h2, h3, h4⟩ := ih (k + 1) (by omega) ⟨j, by omega, by omega, hjg⟩
      refine ⟨km, by omega, h2, ?_, by rw [hstep]; exact h4⟩
      intro j' hj1' hj2'
      by_cases hj' : j' = k
      · exact hj' ▸ hg
      · exact h3 j' (by omega) hj2'

theorem placeAt_shape (cfg : Config) (fi : FileInfo) (output nm t : Path) (fs : FS) (k : Nat) :
    (placeAt cfg fi output nm t fs k).2.2 = .transferred k ∨
    (placeAt cfg fi output nm t fs k).2.2 = .vanished k ∨
    placeAt cfg fi output nm t fs k = (fs, Delta.zero, .raised) := by
  unfold placeAt
  by_cases hm : cfg.move = true
  · simp only [hm, if_true]
    by_cases hd : cfg.dry_run = true
    · simp [hd]
    · simp only [Bool.not_eq_true] at hd
      simp only [hd, Bool.false_eq_true, if_false]
      rcases lookupA fs.files fi.path with _ | c <;> simp
  · simp only [Bool.not_eq_true] at hm
    simp only [hm, Bool.false_eq_true, if_false]
    by_cases hlk : (cfg.link && !cfg.dry_run) = true
    · simp only [hlk, if_true]
      rcases lookupA fs.files fi.path with _ | c <;> simp
    · simp only [Bool.not_eq_true] at hlk
      simp only [hlk, Bool.false_eq_true, if_false]
      by_cases hd : cfg.dry_run = true
      · simp [hd]
      · simp only [Bool.not_eq_true] at hd
        simp only [hd, Bool.false_eq_true, if_false]
        rcases lookupA fs.files fi.path with _ | c <;> simp

theorem procLoop_out (cfg : Config) (fi : FileInfo) (output nm tp : Path) (fs : FS) :
    ∀ (fuel k : Nat) (fs' : FS) (δ : Delta) (o : Outcome), 1 ≤ k →
      procLoop cfg fi output nm tp fs k fuel = some (fs', δ, o) →
      (o = .raised → fs' = fs ∧ δ = Delta.zero) ∧
      (∀ km, o = .dup km → k ≤ km ∧ fs' = fs ∧ δ = dDup ∧
        fi.path ≠ slotPath tp km ∧
        ∃ sc, lookupA fs.files fi.path = some sc ∧
          lookupA fs.files (slotPath tp km) = some sc) ∧
      (∀ km, o = .transferred km ∨ o = .vanished km → k ≤ km ∧
        lookupA fs.files (slotPath tp km) = none ∧
        (fs', δ, o) = placeAt cfg fi output nm (slotPath tp km) fs km) := by
  intro fuel
  induction fuel with
  | zero => intro k fs' δ o _ h; simp [procLoop] at h
  | succ f ih =>
    intro k fs' δ o hk h
    simp only [procLoop] at h
    rcases hc : lookupA fs.files (slotPath tp k) with _ | c
    · rw [hc] at h
      simp only [Option.some.injEq] at h
      have hout : (placeAt cfg fi output nm (slotPath tp k) fs k).2.2 = o :=
        congrArg (fun r => r.2.2) h
      have hsh := placeAt_shape cfg fi output nm (slotPath tp k) fs k
      have hoc : o = Outcome.transferred k ∨ o = Outcome.vanished k ∨
          (o = Outcome.raised ∧ fs' = fs ∧ δ = Delta.zero) := by
        rcases hsh with h1 | h1 | h1
        · exact Or.inl (by rw [← hout, h1])
        · exact Or.inr (Or.inl (by rw [← hout, h1]))
        · refine Or.inr (Or.inr ?_)
          rw [h1] at h
          have h' := h.symm
          simp only [Prod.mk.injEq] at h'
          exact ⟨h'.2.2, h'.1, h'.2.1⟩
      refine ⟨?_, ?_, ?_⟩
      · intro ho
        rcases hoc with h1 | h1 | h1
        · rw [ho] at h1; simp at h1
        · rw [ho] at h1; simp at h1
        · exact ⟨h1.2.1, h1.2.2⟩
      · intro km ho
        rcases hoc with h1 | h1 | h1 <;> rw [ho] at h1 <;> simp at h1
      · intro km ho
        have hkm : km = k := by
          rcases hoc with h1 | h1 | h1
          · rcases ho with ho | ho <;> rw [ho] at h1
            · simpa using h1
            · simp at h1
          · rcases ho with ho | ho <;> rw [ho] at h1
            · simp at h1
            · simpa using h1
          · rcases ho with ho | ho <;> rw [ho] at h1 <;> simp at h1
        subst hkm
        exact ⟨Nat.le_refl _, hc, h.symm⟩
    · rw [hc] at h
      by_cases heq : fi.path = slotPath tp k
      · simp only [heq, if_true] at h
        have := ih (k + 1) fs' δ o (by omega) h
        refine ⟨this.1, ?_, ?_⟩
        · intro km ho
          have h2 := this.2.1 km ho
          exact ⟨by omega, h2.2.1, h2.2.2.1, h2.2.2.2.1, h2.2.2.2.2⟩
        · intro km ho
          have h2 := this.2.2 km ho
          exact ⟨by omega, h2.2.1, h2.2.2⟩
      · simp only [heq, if_false] at h
        rcases hs : lookupA fs.files fi.path with _ | sc
        · rw [hs] at h
          simp only [Option.some.injEq] at h
          refine ⟨?_, ?_, ?_⟩
          · intro _
            exact ⟨congrArg Prod.fst h.symm, congrArg (fun r => r.2.1) h.symm⟩
          · intro km ho
            exfalso
            have := congrArg (fun r => r.2.2) h
            simp [ho] at this
          · intro km ho
            exfalso
            have := congrArg (fun r => r.2.2) h
            rcases ho with ho | ho <;> simp [ho] at this
        · rw [hs] at h
          by_cases hce : c = sc
          · simp only [hce, if_true] at h
            simp only [Option.some.injEq] at h
            refine ⟨?_, ?_, ?_⟩
            · intro ho
              exfalso
              have := congrArg (fun r => r.2.2) h
              simp [ho] at this
            · intro km ho
              have hkm : km = k := by
                have := congrArg (fun r => r.2.2) h
                simp [ho] at this
                exact this.symm
              subst hkm
              refine ⟨Nat.le_refl _, congrArg Prod.fst h.symm,
                congrArg (fun r => r.2.1) h.symm, heq, sc, rfl, by rw [hc, hce]⟩
            · intro km ho
              exfalso
              have := congrArg (fun r => r.2.2) h
              rcases ho with ho | ho <;> simp [ho] at this
          · simp only [hce, if_false] at h
            have := ih (k + 1) fs' δ o (by omega) h
            refine ⟨this.1, ?_, ?_⟩
            · intro km ho
              have h2 := this.2.1 km ho
              obtain ⟨sc', hsc1, hsc2⟩ := h2.2.2.2.2
              refine ⟨by omega, h2.2.1, h2.2.2.1, h2.2.2.2.1, sc', ?_, hsc2⟩
              rw [← hs]; exact hsc1
            · intro km ho
              have h2 := this.2.2 km ho
              exact ⟨by omega, h2.2.1, h2.2.2⟩

/-! ### State-independent views of `get_file_name_and_path` -/

/-- Media kind of a candidate, as `get_file_name_and_path` computes it. -/
def ftOf (fi : FileInfo) : Option FType :=
  match fi.mime with
  | none => none
  | some m => get_file_type m

/-- Destination directory of a candidate (independent of filesystem state). -/
def outOf (cfg : Config) (fi : FileInfo) : Path :=
  match ftOf fi with
  | some _ =>
    match fi.date.fmtOf with
    | none => cfg.output_dir ++ 47 :: cfg.no_date_dir
    | some f => cfg.output_dir ++ 47 :: f
  | none => cfg.output_dir ++ 47 :: cfg.no_date_dir

/-- Destination file name of a candidate. -/
def nmOf (cfg : Config) (fi : FileInfo) : Path :=
  match ftOf fi with
  | some _ =>
    if cfg.original_filenames then get_file_name cfg fi.path fi.date
    else lower (get_file_name cfg fi.path fi.date)
  | none => basename fi.path

/-- The natural target path of a candidate. -/
def tpOf (cfg : Config) (fi : FileInfo) : Path := outOf cfg fi ++ 47 :: nmOf cfg fi

theorem np_eq (cfg : Config) (fi : FileInfo) (fs : FS) :
    get_file_name_and_path cfg fi fs =
      ⟨mkdirA fs (outOf cfg fi) cfg.dry_run, outOf cfg fi, nmOf cfg fi, tpOf cfg fi, ftOf fi⟩ := by
  rcases hm : fi.mime with _ | m
  · simp [get_file_name_and_path, outOf, nmOf, tpOf, ftOf, get_output_dir, hm,
      DateVal.fmtOf, List.append_assoc]
  · rcases hft : get_file_type m with _ | t
    · simp [get_file_name_and_path, outOf, nmOf, tpOf, ftOf, get_output_dir, hm, hft,
        DateVal.fmtOf, List.append_assoc]
    · rcases hdt : fi.date with _ | ⟨f, y, mo, dd, hh, mi, ss, sub⟩
      · by_cases ho : cfg.original_filenames = true <;>
          simp [get_file_name_and_path, outOf, nmOf, tpOf, ftOf, get_output_dir, hm, hft, hdt,
            DateVal.fmtOf, ho, List.append_assoc]
      · rcases f with _ | fp <;> by_cases ho : cfg.original_filenames = true <;>
          simp [get_file_name_and_path, outOf, nmOf, tpOf, ftOf, get_output_dir, hm, hft, hdt,
            DateVal.fmtOf, ho, List.append_assoc]

/-! ### placeAt mode equations -/

theorem placeAt_link (cfg : Config) (fi : FileInfo) (output nm t : Path) (fs : FS) (k : Nat)
    (sc : Content) (hm : cfg.move = false) (hl : cfg.link = true) (hd : cfg.dry_run = false)
    (hsrc : lookupA fs.files fi.path = some sc) :
    placeAt cfg fi output nm t fs k =
      (process_xmp cfg (setF fs t sc) fi.path nm k output, Delta.zero, .transferred k) := by
  unfold placeAt
  simp [hm, hl, hd, hsrc]

theorem placeAt_copy (cfg : Config) (fi : FileInfo) (output nm t : Path) (fs : FS) (k : Nat)
    (sc : Content) (hm : cfg.move = false) (hl : cfg.link = false) (hd : cfg.dry_run = false)
    (hsrc : lookupA fs.files fi.path = some sc) :
    placeAt cfg fi output nm t fs k =
      (process_xmp cfg (setF fs t sc) fi.path nm k output, dCopied, .transferred k) := by
  unfold placeAt
  simp [hm, hl, hd, hsrc]

theorem placeAt_src_out (cfg : Config) (fi : FileInfo) (output nm t : Path) (fs : FS) (k : Nat)
    (sc : Content) (hsrc : lookupA fs.files fi.path = some sc) :
    (placeAt cfg fi output nm t fs k).2.2 = .transferred k := by
  unfold placeAt
  by_cases hm : cfg.move = true
  · by_cases hd : cfg.dry_run = true <;> simp [hm, hd, hsrc]
  · simp only [Bool.not_eq_true] at hm
    by_cases hl : (cfg.link && !cfg.dry_run) = true
    · simp [hm, hl, hsrc]
    · simp only [Bool.not_eq_true] at hl
      by_cases hd : cfg.dry_run = true
      · simp [hm, hl, hd, hsrc]
      · simp only [Bool.not_eq_true] at hd
        have hl' : cfg.link = false := by
          rw [hd] at hl; simpa using hl
        simp [hm, hl', hd, hsrc]

/-! ### Dry-run leaves the filesystem untouched -/

theorem mkdirA_dry (fs : FS) (p : Path) : mkdirA fs p true = fs := by
  simp [mkdirA]

theorem foldl_id {α : Type} (g : FS → α → FS) (hg : ∀ s a, g s a = s) :
    ∀ (l : List α) (s : FS), List.foldl g s l = s := by
  intro l
  induction l with
  | nil => intro s; rfl
  | cons e r ih => intro s; rw [List.foldl_cons, hg]; exact ih s

theorem process_xmp_dry (cfg : Config) (fs : FS) (orig nm : Path) (k : Nat) (output : Path)
    (hd : cfg.dry_run = true) : process_xmp cfg fs orig nm k output = fs := by
  unfold process_xmp
  exact foldl_id _ (fun s a => by simp [hd]) _ fs

theorem placeAt_dry (cfg : Config) (fi : FileInfo) (output nm t : Path) (fs : FS) (k : Nat)
    (hd : cfg.dry_run = true) : (placeAt cfg fi output nm t fs k).1 = fs := by
  unfold placeAt
  by_cases hm : cfg.move = true
  · simp [hm, hd, process_xmp_dry cfg fs fi.path nm k output hd]
  · simp only [Bool.not_eq_true] at hm
    simp [hm, hd, process_xmp_dry cfg fs fi.path nm k output hd]

theorem procLoop_dry (cfg : Config) (fi : FileInfo) (output nm tp : Path) (fs : FS)
    (hd : cfg.dry_run = true) :
    ∀ (fuel k : Nat) (fs' : FS) (δ : Delta) (o : Outcome),
      procLoop cfg fi output nm tp fs k fuel = some (fs', δ, o) → fs' = fs := by
  intro fuel
  induction fuel with
  | zero => intro k fs' δ o h; simp [procLoop] at h
  | succ f ih =>
    intro k fs' δ o h
    simp only [procLoop] at h
    rcases hc : lookupA fs.files (slotPath tp k) with _ | c
    · rw [hc] at h
      simp only [Option.some.injEq] at h
      have h1 := congrArg Prod.fst h
      simp only at h1
      rw [← h1]
      exact placeAt_dry cfg fi output nm (slotPath tp k) fs k hd
    · rw [hc] at h
      by_cases heq : fi.path = slotPath tp k
      · simp only [heq, if_true] at h
        exact ih (k + 1) fs' δ o h
      · simp only [heq, if_false] at h
        rcases hs : lookupA fs.files fi.path with _ | sc
        · rw [hs] at h
          simp only [Option.some.injEq] at h
          exact (congrArg Prod.fst h).symm
        · rw [hs] at h
          by_cases hce : c = sc
          · simp only [hce, if_true, Option.some.injEq] at h
            exact (congrArg Prod.fst h).symm
          · simp only [hce, if_false] at h
            exact ih (k + 1) fs' δ o h

/-- Under dry-run, `process_file` performs no filesystem mutation at all: no
file is written, moved or linked and no directory is created. -/
theorem process_file_dry (cfg : Config) (fi : FileInfo) (fs : FS)
    (hd : cfg.dry_run = true) : (process_file cfg fi fs).1 = fs := by
  unfold process_file
  by_cases hx : (str ".xmp").isSuffixOf fi.path = true
  · simp [hx]
  · simp only [Bool.not_eq_true] at hx
    rw [np_eq]
    simp only [hx, Bool.false_eq_true, if_false, hd, mkdirA_dry]
    by_cases h1 : (cfg.file_type.isSome && !(decide (cfg.file_type = ftOf fi))) = true
    · simp [h1]
    · simp only [Bool.not_eq_true] at h1
      simp only [h1, Bool.false_eq_true, if_false]
      by_cases h2 : (cfg.skip_unknown && cfg.no_date_dir.isSuffixOf (outOf cfg fi)) = true
      · simp [h2]
      · simp only [Bool.not_eq_true] at h2
        simp only [h2, Bool.false_eq_true, if_false]
        rcases hl : procLoop cfg fi (outOf cfg fi) (nmOf cfg fi) (tpOf cfg fi) fs 1
            (fs.files.length + 1) with _ | r
        · simp
        · obtain ⟨fs', δ, o⟩ := r
          have := procLoop_dry cfg fi (outOf cfg fi) (nmOf cfg fi) (tpOf cfg fi) fs hd
            (fs.files.length + 1) 1 fs' δ o hl
          by_cases ho : o = Outcome.raised <;> simp [ho, this]

/-! ### The full resolution of one file that reaches the collision loop -/

theorem process_file_loop (cfg : Config) (fi : FileInfo) (fs : FS)
    (hxmp : (str ".xmp").isSuffixOf fi.path = false)
    (hft : cfg.file_type = none) (hsu : cfg.skip_unknown = false) :
    process_file cfg fi fs =
      (match procLoop cfg fi (outOf cfg fi) (nmOf cfg fi) (tpOf cfg fi)
          (mkdirA fs (outOf cfg fi) cfg.dry_run) 1
          ((mkdirA fs (outOf cfg fi) cfg.dry_run).files.length + 1) with
       | some r => if r.2.2 = Outcome.raised then r else (r.1, r.2.1.addProcessed, r.2.2)
       | none => (mkdirA fs (outOf cfg fi) cfg.dry_run, Delta.zero, Outcome.raised)) := by
  unfold process_file
  rw [np_eq]
  simp [hxmp, hft, hsu]

/-- The master per-file resolution lemma, for a file that reaches the collision
loop and whose source exists: the loop stops at the least good slot `km`, as a
transfer when that slot is free and as a duplicate when it holds identical
content at a distinct path. -/
theorem process_file_main (cfg : Config) (fi : FileInfo) (fs : FS) (sc : Content)
    (hxmp : (str ".xmp").isSuffixOf fi.path = false)
    (hft : cfg.file_type = none) (hsu : cfg.skip_unknown = false)
    (hsrc : lookupA fs.files fi.path = some sc) :
    ∃ km, 1 ≤ km ∧ km ≤ fs.files.length + 1 ∧
      goodAt fs.files fi.path sc (tpOf cfg fi) km ∧
      (∀ j, 1 ≤ j → j < km → ¬ goodAt fs.files fi.path sc (tpOf cfg fi) j) ∧
      ((lookupA fs.files (slotPath (tpOf cfg fi) km) = none ∧
        (placeAt cfg fi (outOf cfg fi) (nmOf cfg fi) (slotPath (tpOf cfg fi) km)
            (mkdirA fs (outOf cfg fi) cfg.dry_run) km).2.2 = Outcome.transferred km ∧
        process_file cfg fi fs =
          (let r := placeAt cfg fi (outOf cfg fi) (nmOf cfg fi) (slotPath (tpOf cfg fi) km)
              (mkdirA fs (outOf cfg fi) cfg.dry_run) km
           (r.1, r.2.1.addProcessed, r.2.2))) ∨
       (slotPath (tpOf cfg fi) km ≠ fi.path ∧
        lookupA fs.files (slotPath (tpOf cfg fi) km) = some sc ∧
        process_file cfg fi fs =
          (mkdirA fs (outOf cfg fi) cfg.dry_run, Delta.addProcessed dDup, Outcome.dup km))) := by
  set fsd := mkdirA fs (outOf cfg fi) cfg.dry_run with hfsd
  have hfiles : fsd.files = fs.files := mkdirA_files fs (outOf cfg fi) cfg.dry_run
  have hsrc' : lookupA fsd.files fi.path = some sc := by rw [hfiles]; exact hsrc
  obtain ⟨jf, hj1, hj2, hjfree⟩ := free_slot fs (tpOf cfg fi)
  have hex : ∃ j, 1 ≤ j ∧ j < 1 + (fsd.files.length + 1) ∧
      goodAt fsd.files fi.path sc (tpOf cfg fi) j := by
    refine ⟨jf, hj1, by rw [hfiles]; omega, Or.inl ?_⟩
    rw [hfiles]; exact hjfree
  obtain ⟨km, hkm1, hkmg, hkmin, hloop⟩ :=
    procLoop_find cfg fi (outOf cfg fi) (nmOf cfg fi) (tpOf cfg fi) fsd sc hsrc'
      (fsd.files.length + 1) 1 (Nat.le_refl 1) hex
  have hpf := process_file_loop cfg fi fs hxmp hft hsu
  rw [← hfsd] at hpf
  rw [hloop] at hpf
  have hbound : km ≤ fs.files.length + 1 := by
    by_cases hb : km ≤ jf
    · omega
    · exfalso
      refine hkmin jf hj1 (by omega) (Or.inl ?_)
      rw [hfiles]
      exact hjfree
  rw [hfiles] at hkmg hkmin
  refine ⟨km, hkm1, hbound, hkmg, hkmin, ?_⟩
  unfold loopResult at hpf
  rcases hslot : lookupA fs.files (slotPath (tpOf cfg fi) km) with _ | c
  · left
    have hslot' : lookupA fsd.files (slotPath (tpOf cfg fi) km) = none := by
      rw [hfiles]; exact hslot
    rw [hslot'] at hpf
    have hout := placeAt_src_out cfg fi (outOf cfg fi) (nmOf cfg fi)
      (slotPath (tpOf cfg fi) km) fsd km sc hsrc'
    refine ⟨rfl, hout, ?_⟩
    rw [hpf]
    simp only [hout]
    have : (Outcome.transferred km = Outcome.raised) = False := by simp
    simp only [this, if_false]
  · right
    rcases hkmg with hfree | ⟨hne, hdup⟩
    · rw [hslot] at hfree; exact absurd hfree (by simp)
    · have hslot' : lookupA fsd.files (slotPath (tpOf cfg fi) km) = some c := by
        rw [hfiles]; exact hslot
      rw [hslot'] at hpf
      refine ⟨hne, hslot.symm.trans hdup, ?_⟩
      rw [hpf]
      simp

/-! ### Exclusion bookkeeping -/

/-- One pattern step of `filter_files`. -/
def ffStep (files : List Path) (acc : List Path × List (Path × Nat)) (pat : Path) :
    List Path × List (Path × Nat) :=
  (acc.1 ++ fnfilter files pat, upsertA acc.2 pat (fnfilter files pat).length)

theorem filter_files_eq_foldl (files pats : List Path) :
    filter_files files pats = pats.foldl (ffStep files) ([], []) := rfl

/-- The concatenation of the per-pattern match lists, in pattern order. -/
def exAll (files : List Path) : List Path → List Path
  | [] => []
  | p :: ps => fnfilter files p ++ exAll files ps

theorem foldl_ffStep_fst (files : List Path) :
    ∀ (pats : List Path) (acc : List Path × List (Path × Nat)),
      (pats.foldl (ffStep files) acc).1 = acc.1 ++ exAll files pats := by
  intro pats
  induction pats with
  | nil => intro acc; simp [exAll]
  | cons p ps ih =>
    intro acc
    rw [List.foldl_cons, ih]
    simp [ffStep, exAll, List.append_assoc]

theorem exAll_length (files : List Path) : ∀ (pats : List Path),
    (exAll files pats).length = (pats.map (fun p => (fnfilter files p).length)).sum := by
  intro pats
  induction pats with
  | nil => simp [exAll]
  | cons p ps ih => simp [exAll, ih]

theorem exAll_mem (files : List Path) : ∀ (pats : List Path) (x : Path),
    x ∈ exAll files pats ↔ ∃ p ∈ pats, x ∈ files ∧ gmatch p x = true := by
  intro pats
  induction pats with
  | nil => intro x; simp [exAll]
  | cons p ps ih =>
    intro x
    simp only [exAll, List.mem_append, ih, fnfilter, List.mem_filter, List.mem_cons]
    constructor
    · rintro (⟨h1, h2⟩ | ⟨q, hq, h1, h2⟩)
      · exact ⟨p, Or.inl rfl, h1, h2⟩
      · exact ⟨q, Or.inr hq, h1, h2⟩
    · rintro ⟨q, (rfl | hq), h1, h2⟩
      · exact Or.inl ⟨h1, h2⟩
      · exact Or.inr ⟨q, hq, h1, h2⟩

theorem lookupA_none_of_not_any {β : Type} :
    ∀ (l : List (Path × β)) (k : Path),
      l.any (fun e => decide (e.1 = k)) = false → lookupA l k = none := by
  intro l
  induction l with
  | nil => intro k _; rfl
  | cons e r ih =>
    intro k h
    obtain ⟨k1, v1⟩ := e
    simp only [List.any_cons, Bool.or_eq_false_iff] at h
    have h1 : ¬ (k1 = k) := by simpa using h.1
    simp only [lookupA, h1, if_false]
    exact ih k h.2

theorem lookupA_map_upsert {β : Type} :
    ∀ (l : List (Path × β)) (k : Path) (v : β),
      l.any (fun e => decide (e.1 = k)) = true →
      lookupA (l.map (fun e => if e.1 = k then (k, v) else e)) k = some v := by
  intro l
  induction l with
  | nil => intro k v h; simp at h
  | cons e r ih =>
    intro k v h
    obtain ⟨k1, v1⟩ := e
    simp only [List.any_cons, Bool.or_eq_true] at h
    by_cases h1 : k1 = k
    · subst h1
      simp only [List.map_cons, eq_self_iff_true, if_true]
      simp [lookupA]
    · have h2 : r.any (fun e => decide (e.1 = k)) = true := by
        rcases h with hx | hx
        · exact absurd (by simpa using hx) h1
        · exact hx
      simp only [List.map_cons]
      rw [show (if (k1, v1).1 = k then (k, v) else (k1, v1)) = (k1, v1) from if_neg h1]
      simp only [lookupA, h1, if_false]
      exact ih k v h2

theorem lookupA_map_other {β : Type} :
    ∀ (l : List (Path × β)) (k : Path) (v : β) (q : Path), k ≠ q →
      lookupA (l.map (fun e => if e.1 = k then (k, v) else e)) q = lookupA l q := by
  intro l
  induction l with
  | nil => intro k v q _; rfl
  | cons e r ih =>
    intro k v q hne
    obtain ⟨k1, v1⟩ := e
    simp only [List.map_cons]
    by_cases h1 : k1 = k
    · subst h1
      rw [show (if (k1, v1).1 = k1 then (k1, v) else (k1, v1)) = (k1, v) from if_pos rfl]
      have hq : ¬ (k1 = q) := hne
      simp only [lookupA, hq, if_false]
      exact ih k1 v q hne
    · rw [show (if (k1, v1).1 = k then (k, v) else (k1, v1)) = (k1, v1) from if_neg h1]
      by_cases hq : k1 = q
      · simp [lookupA, hq]
      · simp only [lookupA, hq, if_false]
        exact ih k v q hne

theorem lookupA_upsert_self {β : Type} (l : List (Path × β)) (k : Path) (v : β) :
    lookupA (upsertA l k v) k = some v := by
  unfold upsertA
  by_cases hany : l.any (fun e => decide (e.1 = k)) = true
  · simp only [hany, if_true]
    exact lookupA_map_upsert l k v hany
  · simp only [Bool.not_eq_true] at hany
    simp only [hany, Bool.false_eq_true, if_false]
    rw [lookupA_append, lookupA_none_of_not_any l k hany]
    simp [lookupA]

theorem lookupA_upsert_other {β : Type} (l : List (Path × β)) (k : Path) (v : β) (q : Path)
    (hne : k ≠ q) : lookupA (upsertA l k v) q = lookupA l q := by
  unfold upsertA
  by_cases hany : l.any (fun e => decide (e.1 = k)) = true
  · simp only [hany, if_true]
    exact lookupA_map_other l k v q hne
  · simp only [Bool.not_eq_true] at hany
    simp only [hany, Bool.false_eq_true, if_false]
    rw [lookupA_append]
    rcases hl : lookupA l q with _ | c
    · simp [lookupA, fun h : k = q => hne h]
    · simp

theorem foldl_ffStep_preserve (files : List Path) :
    ∀ (qs : List Path) (acc : List Path × List (Path × Nat)) (p : Path), p ∉ qs →
      lookupA (qs.foldl (ffStep files) acc).2 p = lookupA acc.2 p := by
  intro qs
  induction qs with
  | nil => intro acc p _; rfl
  | cons q r ih =>
    intro acc p hp
    have hpq : q ≠ p := fun h => hp (by simp [h])
    have hpr : p ∉ r := fun h => hp (by simp [h])
    rw [List.foldl_cons, ih (ffStep files acc q) p hpr]
    exact lookupA_upsert_other acc.2 q _ p hpq

theorem foldl_ffStep_count (files : List Path) :
    ∀ (pats : List Path) (acc : List Path × List (Path × Nat)) (p : Path), p ∈ pats →
      lookupA (pats.foldl (ffStep files) acc).2 p = some (fnfilter files p).length := by
  intro pats
  induction pats with
  | nil => intro acc p hp; simp at hp
  | cons q r ih =>
    intro acc p hp
    by_cases hq : p ∈ r
    · rw [List.foldl_cons]
      exact ih (ffStep files acc q) p hq
    · have hpq : p = q := by
        rcases List.mem_cons.mp hp with h | h
        · exact h
        · exact absurd h hq
      subst hpq
      rw [List.foldl_cons, foldl_ffStep_preserve files r (ffStep files acc p) p hq]
      exact lookupA_upsert_self acc.2 p _

/-! ### Claim theorems -/

/-- Empty filesystem fixture for witnesses. -/
def fsE : FS := ⟨[], []⟩

/-- Default configuration fixture: copy mode, no filters, not dry-run. -/
def cfgW : Config := ⟨str "/out", str "unknown", false, false, false, false, false, none⟩

/-- An image candidate without an extractable date. -/
def fiW : FileInfo := ⟨str "/in/a.jpg", some (str "image/jpeg"), DateVal.vnone⟩

/-- Filesystem for the duplicate witness: the source and a byte-identical file
already sitting at the naturally computed destination. -/
def fsDupW : FS :=
  ⟨[(str "/in/a.jpg", [1, 2, 3]), (str "/out/unknown/a.jpg", [1, 2, 3])], []⟩

/-- C1: a file whose computed destination already holds a byte-for-byte
identical file (full content comparison, embedded as equality of the complete
byte lists) is recorded as a duplicate: `duplicates_found` and
`files_processed` each rise by exactly one, no other counter moves, no
copy/move/link is performed (the file table is unchanged), and the outcome is
the duplicate break, not an error. -/
theorem C1_duplicate_skip (cfg : Config) (fi : FileInfo) (fs : FS) (c : Content)
    (hxmp : (str ".xmp").isSuffixOf fi.path = false)
    (hft : cfg.file_type = none) (hsu : cfg.skip_unknown = false)
    (hsrc : lookupA fs.files fi.path = some c)
    (hdst : lookupA fs.files (tpOf cfg fi) = some c)
    (hne : fi.path ≠ tpOf cfg fi) :
    process_file cfg fi fs =
      (mkdirA fs (outOf cfg fi) cfg.dry_run, ⟨1, 1, 0, 0, 0⟩, Outcome.dup 1) ∧
    (process_file cfg fi fs).1.files = fs.files := by
  obtain ⟨km, hkm1, -, hkmg, hkmin, hres⟩ := process_file_main cfg fi fs c hxmp hft hsu hsrc
  have hg1 : goodAt fs.files fi.path c (tpOf cfg fi) 1 :=
    Or.inr ⟨fun h => hne h.symm, by rw [slotPath_one]; exact hdst⟩
  have hkm : km = 1 := by
    by_contra h
    exact hkmin 1 (Nat.le_refl 1) (by omega) hg1
  subst hkm
  rcases hres with ⟨hfree, -, -⟩ | ⟨-, -, heq⟩
  · rw [slotPath_one, hdst] at hfree
    exact absurd hfree (by simp)
  · refine ⟨?_, ?_⟩
    · rw [heq]
      simp [dDup, Delta.addProcessed]
    · rw [heq]
      exact mkdirA_files fs (outOf cfg fi) cfg.dry_run

theorem C1_witness :
    ((str ".xmp").isSuffixOf fiW.path = false ∧ cfgW.file_type = none ∧
     cfgW.skip_unknown = false ∧ lookupA fsDupW.files fiW.path = some [1, 2, 3] ∧
     lookupA fsDupW.files (tpOf cfgW fiW) = some [1, 2, 3] ∧ fiW.path ≠ tpOf cfgW fiW) ∧
    (process_file cfgW fiW fsDupW =
       (mkdirA fsDupW (outOf cfgW fiW) cfgW.dry_run, ⟨1, 1, 0, 0, 0⟩, Outcome.dup 1) ∧
     (process_file cfgW fiW fsDupW).1.files = fsDupW.files) :=
  ⟨⟨by decide, rfl, rfl, by decide, by decide, by decide⟩,
   C1_duplicate_skip cfgW fiW fsDupW [1, 2, 3] (by decide) rfl rfl
     (by decide) (by decide) (by decide)⟩

/-- C9: whenever the date result is absent or its directory formatting fails,
`get_output_dir` returns the output root joined with the configured fallback
directory; and for every date result whatsoever it returns a well-formed
output-root-prefixed path (the embedding is total: the `TypeError`/`ValueError`
cases are caught, never propagated). -/
theorem C9_fallback_dir (cfg : Config) (fs : FS) (d : DateVal) (hfmt : d.fmtOf = none) :
    (get_output_dir cfg fs d).2 = cfg.output_dir ++ 47 :: cfg.no_date_dir ∧
    (∀ d' : DateVal, ∃ seg : Path,
      (get_output_dir cfg fs d').2 = cfg.output_dir ++ 47 :: seg) := by
  constructor
  · simp [get_output_dir, hfmt]
  · intro d'
    rcases h : d'.fmtOf with _ | f
    · exact ⟨cfg.no_date_dir, by simp [get_output_dir, h]⟩
    · exact ⟨f, by simp [get_output_dir, h]⟩

theorem C9_witness :
    (DateVal.vnone.fmtOf = none) ∧
    ((get_output_dir cfgW fsE DateVal.vnone).2 = cfgW.output_dir ++ 47 :: cfgW.no_date_dir ∧
     (∀ d' : DateVal, ∃ seg : Path,
       (get_output_dir cfgW fsE d').2 = cfgW.output_dir ++ 47 :: seg)) :=
  ⟨rfl, C9_fallback_dir cfgW fsE DateVal.vnone rfl⟩

/-- C5 as frozen is false: for a media file with an absent date and without
original-name mode, the code lowercases the fallback basename before use
(`target_file_name.lower()` applies to every media name, not only synthesized
ones), so the destination name is not the original base name unmodified. -/
theorem C5_counterexample :
    (get_file_name_and_path cfgW
        ⟨str "/in/PHOTO.JPG", some (str "image/jpeg"), DateVal.vnone⟩ fsE).name =
      str "photo.jpg" ∧
    str "photo.jpg" ≠ str "PHOTO.JPG" ∧
    basename (str "/in/PHOTO.JPG") = str "PHOTO.JPG" := by decide

/-- C5 amended: the destination name is the original base name unmodified when
original-name mode is set or the file is not classified as media; for media
files without original-name mode the name is lowercased before use — the
lowercased original base name when the date result is absent, otherwise the
lowercased synthesized `YYYYmmdd-HHMMSS[subseconds]` name carrying the
original extension. -/
theorem C5_name_rule (cfg : Config) (fi : FileInfo) (fs : FS) :
    (cfg.original_filenames = true →
      (get_file_name_and_path cfg fi fs).name = basename fi.path) ∧
    (ftOf fi = none →
      (get_file_name_and_path cfg fi fs).name = basename fi.path) ∧
    (cfg.original_filenames = false → ftOf fi ≠ none → fi.date = DateVal.vnone →
      (get_file_name_and_path cfg fi fs).name = lower (basename fi.path)) ∧
    (∀ f y mo dd h mi s sub, cfg.original_filenames = false → ftOf fi ≠ none →
      fi.date = DateVal.vsome f y mo dd h mi s sub →
      (get_file_name_and_path cfg fi fs).name =
        lower (pad 4 y ++ pad 2 mo ++ pad 2 dd ++ 45 ::
          (pad 2 h ++ pad 2 mi ++ pad 2 s ++ sub ++ (splitext fi.path).2))) := by
  rw [np_eq]
  refine ⟨?_, ?_, ?_, ?_⟩
  · intro ho
    rcases hftv : ftOf fi with _ | t <;> simp [nmOf, hftv, ho, get_file_name]
  · intro hftv
    simp [nmOf, hftv]
  · intro ho hftv hd
    rcases hftv' : ftOf fi with _ | t
    · exact absurd hftv' hftv
    · simp [nmOf, hftv', ho, get_file_name, hd]
  · intro f y mo dd h mi s sub ho hftv hd
    rcases hftv' : ftOf fi with _ | t
    · exact absurd hftv' hftv
    · simp [nmOf, hftv', ho, get_file_name, hd]

theorem C5_witness :
    (cfgW.original_filenames = false ∧ ftOf fiW ≠ none ∧ fiW.date = DateVal.vnone) ∧
    (get_file_name_and_path cfgW fiW fsE).name = lower (basename fiW.path) :=
  ⟨⟨rfl, by decide, rfl⟩, (C5_name_rule cfgW fiW fsE).2.2.1 rfl (by decide) rfl⟩

/-- C8 as frozen is false on its total-count clause: the excluded-files count
is the length of the concatenated per-pattern match lists, so a single name
matching two patterns raises the total by two, not one. -/
theorem C8_counterexample :
    (exclude_files [str "a.tmp"] [str "*.tmp", str "a.*"]).1 = [] ∧
    (exclude_files [str "a.tmp"] [str "*.tmp", str "a.*"]).2.1 = 2 ∧
    (2 : Nat) ≠ 1 := by decide

/-- C8 amended: a name matching one or more patterns is excluded exactly once
from the surviving list (the survivors are exactly the files matching no
pattern); the total excluded count rises by one per (name, matching pattern)
pair — a name matching m patterns contributes m; the per-pattern count equals
the number of names matching that pattern; and the `*.tmp` example over
`a.tmp, b.jpg` yields one excluded file with a per-pattern count of one. -/
theorem C8_exclusion_counts (files pats : List Path) :
    ((exclude_files files pats).1 =
      files.filter (fun f => !(pats.any (fun p => gmatch p f)))) ∧
    ((exclude_files files pats).2.1 =
      (pats.map (fun p => (fnfilter files p).length)).sum) ∧
    (∀ p ∈ pats, lookupA (exclude_files files pats).2.2 p =
      some (fnfilter files p).length) ∧
    (exclude_files [str "a.tmp", str "b.jpg"] [str "*.tmp"] =
      ([str "b.jpg"], 1, [(str "*.tmp", 1)])) := by
  have hfst : (filter_files files pats).1 = exAll files pats := by
    rw [filter_files_eq_foldl, foldl_ffStep_fst]
    simp
  refine ⟨?_, ?_, ?_, by decide⟩
  · show files.filter (fun f => decide (f ∉ (filter_files files pats).1)) = _
    rw [hfst]
    refine List.filter_congr ?_
    intro a ha
    have hmem : a ∈ exAll files pats ↔ pats.any (fun p => gmatch p a) = true := by
      rw [exAll_mem files pats a, List.any_eq_true]
      constructor
      · rintro ⟨p, hp, -, hg⟩; exact ⟨p, hp, hg⟩
      · rintro ⟨p, hp, hg⟩; exact ⟨p, hp, ha, hg⟩
    by_cases hb : pats.any (fun p => gmatch p a) = true
    · simp [hb, hmem.mpr hb]
    · simp only [Bool.not_eq_true] at hb
      have hnm : a ∉ exAll files pats := fun hc =>
        absurd (hmem.mp hc) (by simp [hb])
      simp [hb, hnm]
  · show (filter_files files pats).1.length = _
    rw [hfst]
    exact exAll_length files pats
  · intro p hp
    show lookupA (filter_files files pats).2 p = _
    rw [filter_files_eq_foldl]
    exact foldl_ffStep_count files pats ([], []) p hp

theorem outOf_shape (cfg : Config) (fi : FileInfo) :
    ∃ seg, outOf cfg fi = cfg.output_dir ++ 47 :: seg := by
  unfold outOf
  rcases ftOf fi with _ | t
  · exact ⟨cfg.no_date_dir, rfl⟩
  · rcases fi.date.fmtOf with _ | f
    · exact ⟨cfg.no_date_dir, rfl⟩
    · exact ⟨f, rfl⟩

theorem pfx_out_tp (cfg : Config) (fi : FileInfo) : pfxP (oPre cfg) (tpOf cfg fi) := by
  obtain ⟨seg, hseg⟩ := outOf_shape cfg fi
  refine ⟨seg ++ 47 :: nmOf cfg fi, ?_⟩
  rw [tpOf, hseg]
  simp [oPre, List.append_assoc]

theorem pfx_out_slot (cfg : Config) (fi : FileInfo) (k : Nat) :
    pfxP (oPre cfg) (slotPath (tpOf cfg fi) k) := by
  unfold slotPath
  by_cases hk : k ≤ 1
  · simp only [hk, if_true]
    exact pfx_out_tp cfg fi
  · simp only [hk, if_false]
    have hb : pfxP (oPre cfg) (splitext (tpOf cfg fi)).1 := by
      have h1 := pfx_out_tp cfg fi
      rw [← splitext_concat (tpOf cfg fi)] at h1
      exact pfx_split (splitext_no_sep (tpOf cfg fi)) h1
    exact pfx_ext hb _

theorem append_ne_self (p q : Path) (hq : q ≠ []) : p ++ q ≠ p := by
  intro h
  have := congrArg List.length h
  simp only [List.length_append] at this
  have : q.length = 0 := by omega
  exact hq (List.length_eq_zero.mp this)

theorem not_out_xmp_a (cfg : Config) (src : Path) (h : ¬ pfxP (oPre cfg) src) :
    ¬ pfxP (oPre cfg) (src ++ str ".xmp") :=
  pfx_not_ext (by decide) h

theorem not_out_xmp_b (cfg : Config) (src : Path) (h : ¬ pfxP (oPre cfg) src) :
    ¬ pfxP (oPre cfg) ((splitext src).1 ++ str ".xmp") := by
  refine pfx_not_ext (by decide) ?_
  intro hc
  refine h ?_
  have := pfx_ext hc (splitext src).2
  rw [splitext_concat src] at this
  exact this

theorem process_xmp_noop (cfg : Config) (g : FS) (orig nm : Path) (k : Nat) (output : Path)
    (h1 : lookupA g.files (orig ++ str ".xmp") = none)
    (h2 : lookupA g.files ((splitext orig).1 ++ str ".xmp") = none) :
    process_xmp cfg g orig nm k output = g := by
  unfold process_xmp
  simp [h1, h2]

/-- A transfer at a free slot whose sidecar lookups come up empty preserves
every existing file other than the source (the source itself is removed in
move mode), and in particular never overwrites an existing distinct file. -/
theorem placeAt_preserve (cfg : Config) (fi : FileInfo) (output nm t : Path) (fs : FS)
    (k : Nat) (sc : Content)
    (hsrc : lookupA fs.files fi.path = some sc)
    (hxa : lookupA fs.files (fi.path ++ str ".xmp") = none)
    (hxb : lookupA fs.files ((splitext fi.path).1 ++ str ".xmp") = none)
    (hta : t ≠ fi.path ++ str ".xmp")
    (htb : t ≠ (splitext fi.path).1 ++ str ".xmp") :
    ∀ p c', p ≠ fi.path → p ≠ t → lookupA fs.files p = some c' →
      lookupA (placeAt cfg fi output nm t fs k).1.files p = some c' := by
  intro p c' hp hpt hlook
  have hxa1 : fi.path ++ str ".xmp" ≠ fi.path :=
    append_ne_self fi.path (str ".xmp") (by decide)
  unfold placeAt
  by_cases hm : cfg.move = true
  · by_cases hd : cfg.dry_run = true
    · simp only [hm, if_true, hd]
      rw [process_xmp_dry cfg fs fi.path nm k output hd]
      exact hlook
    · simp only [Bool.not_eq_true] at hd
      simp only [hm, if_true, hd, Bool.false_eq_true, if_false, hsrc]
      set fs1 := setF (eraseF fs fi.path) t sc with hfs1
      have hl1 : lookupA fs1.files (fi.path ++ str ".xmp") = none := by
        rw [hfs1, lookupA_setF]
        rw [if_neg hta]
        rw [lookupA_eraseF]
        rw [if_neg hxa1]
        exact hxa
      have hl2 : lookupA fs1.files ((splitext fi.path).1 ++ str ".xmp") = none := by
        rw [hfs1, lookupA_setF]
        rw [if_neg htb]
        rw [lookupA_eraseF]
        by_cases he : (splitext fi.path).1 ++ str ".xmp" = fi.path
        · rw [if_pos he]
        · rw [if_neg he]
          exact hxb
      rw [process_xmp_noop cfg fs1 fi.path nm k output hl1 hl2]
      rw [hfs1]
      simp only [lookupA_setF]
      rw [if_neg (fun h => hpt h.symm), lookupA_eraseF, if_neg hp]
      exact hlook
  · simp only [Bool.not_eq_true] at hm
    have hset : lookupA (setF fs t sc).files (fi.path ++ str ".xmp") = none ∧
        lookupA (setF fs t sc).files ((splitext fi.path).1 ++ str ".xmp") = none := by
      constructor
      · rw [lookupA_setF, if_neg hta]; exact hxa
      · rw [lookupA_setF, if_neg htb]; exact hxb
    by_cases hlk : (cfg.link && !cfg.dry_run) = true
    · simp only [hm, Bool.false_eq_true, if_false, hlk, if_true, hsrc]
      obtain ⟨hl1, hl2⟩ := hset
      rw [process_xmp_noop cfg (setF fs t sc) fi.path nm k output hl1 hl2]
      rw [lookupA_setF, if_neg (fun h => hpt h.symm)]
      exact hlook
    · simp only [Bool.not_eq_true] at hlk
      have h1 : (cfg.move = true) = False := by simp [hm]
      have h2 : ((cfg.link && !cfg.dry_run) = true) = False := by simp [hlk]
      by_cases hd : cfg.dry_run = true
      · have h3 : (cfg.dry_run = true) = True := by simp [hd]
        simp only [h1, h2, h3, if_false, if_true]
        rw [process_xmp_dry cfg fs fi.path nm k output hd]
        exact hlook
      · simp only [Bool.not_eq_true] at hd
        have h3 : (cfg.dry_run = true) = False := by simp [hd]
        simp only [h1, h2, h3, if_false, hsrc]
        obtain ⟨hl1, hl2⟩ := hset
        rw [process_xmp_noop cfg (setF fs t sc) fi.path nm k output hl1 hl2]
        rw [lookupA_setF, if_neg (fun h => hpt h.symm)]
        exact hlook

/-- C2: when the natural destination exists with non-identical content, the
resolver walks the suffixed candidates `slotPath tpath k` (iteration `k ≥ 2`
inserts `-{k}` before the extension, a strictly increasing integer) and stops
at the first slot that is free or holds identical content: the outcome is a
transfer or a duplicate at some `km ≥ 2`, every earlier slot fails the
stopping condition, a transfer happens only into a slot where no file exists,
and no existing file other than the source is overwritten. -/
theorem C2_suffix_resolution (cfg : Config) (fi : FileInfo) (fs : FS) (sc c0 : Content)
    (hxmp : (str ".xmp").isSuffixOf fi.path = false)
    (hft : cfg.file_type = none) (hsu : cfg.skip_unknown = false)
    (hsrc : lookupA fs.files fi.path = some sc)
    (hocc : lookupA fs.files (tpOf cfg fi) = some c0)
    (hne : c0 ≠ sc)
    (hout : (oPre cfg).isPrefixOf fi.path = false)
    (hx1 : lookupA fs.files (fi.path ++ str ".xmp") = none)
    (hx2 : lookupA fs.files ((splitext fi.path).1 ++ str ".xmp") = none) :
    ∃ km, 2 ≤ km ∧
      ((process_file cfg fi fs).2.2 = Outcome.dup km ∨
       (process_file cfg fi fs).2.2 = Outcome.transferred km) ∧
      goodAt fs.files fi.path sc (tpOf cfg fi) km ∧
      (∀ j, 1 ≤ j → j < km → ¬ goodAt fs.files fi.path sc (tpOf cfg fi) j) ∧
      ((process_file cfg fi fs).2.2 = Outcome.transferred km →
        lookupA fs.files (slotPath (tpOf cfg fi) km) = none) ∧
      (∀ p c', p ≠ fi.path → lookupA fs.files p = some c' →
        lookupA (process_file cfg fi fs).1.files p = some c') := by
  have hnout : ¬ pfxP (oPre cfg) fi.path := by
    intro hc
    rw [← isPrefixOf_iff] at hc
    rw [hout] at hc
    exact absurd hc (by simp)
  obtain ⟨km, hkm1, -, hkmg, hkmin, hres⟩ := process_file_main cfg fi fs sc hxmp hft hsu hsrc
  have hng1 : ¬ goodAt fs.files fi.path sc (tpOf cfg fi) 1 := by
    rintro (hfree | ⟨-, hdup⟩)
    · rw [slotPath_one, hocc] at hfree
      exact absurd hfree (by simp)
    · rw [slotPath_one, hocc] at hdup
      exact hne (Option.some.inj hdup)
  have hkm2 : 2 ≤ km := by
    rcases Nat.lt_or_ge km 2 with h | h
    · exfalso
      have : km = 1 := by omega
      rw [this] at hkmg
      exact hng1 hkmg
    · exact h
  refine ⟨km, hkm2, ?_, hkmg, hkmin, ?_, ?_⟩
  · rcases hres with ⟨-, hout2, heq⟩ | ⟨-, -, heq⟩
    · right
      rw [heq]
      exact hout2
    · left
      rw [heq]
  · intro _
    rcases hres with ⟨hfree, -, -⟩ | ⟨-, hdup, heq⟩
    · exact hfree
    · exfalso
      rename_i htr
      rw [heq] at htr
      exact absurd htr (by simp)
  · intro p c' hp hlook
    rcases hres with ⟨hfree, -, heq⟩ | ⟨-, -, heq⟩
    · rw [heq]
      simp only
      have hfd : (mkdirA fs (outOf cfg fi) cfg.dry_run).files = fs.files :=
        mkdirA_files fs (outOf cfg fi) cfg.dry_run
      have hxmpne : slotPath (tpOf cfg fi) km ≠ fi.path ++ str ".xmp" := by
        intro h
        exact not_out_xmp_a cfg fi.path hnout (h ▸ pfx_out_slot cfg fi km)
      have hxmpne2 : slotPath (tpOf cfg fi) km ≠ (splitext fi.path).1 ++ str ".xmp" := by
        intro h
        exact not_out_xmp_b cfg fi.path hnout (h ▸ pfx_out_slot cfg fi km)
      have hpt : p ≠ slotPath (tpOf cfg fi) km := by
        intro h
        rw [h, hfree] at hlook
        exact absurd hlook (by simp)
      have := placeAt_preserve cfg fi (outOf cfg fi) (nmOf cfg fi)
        (slotPath (tpOf cfg fi) km) (mkdirA fs (outOf cfg fi) cfg.dry_run) km sc
        (by rw [hfd]; exact hsrc)
        (by rw [hfd]; exact hx1) (by rw [hfd]; exact hx2)
        hxmpne hxmpne2 p c' hp hpt (by rw [hfd]; exact hlook)
      exact this
    · rw [heq]
      simp only
      rw [mkdirA_files]
      exact hlook

/-- Filesystem for the suffix-resolution witness: the natural destination is
occupied by distinct content. -/
def fsConfW : FS :=
  ⟨[(str "/in/a.jpg", [1, 2, 3]), (str "/out/unknown/a.jpg", [9])], []⟩

theorem C2_witness :
    ((str ".xmp").isSuffixOf fiW.path = false ∧ cfgW.file_type = none ∧
     cfgW.skip_unknown = false ∧ lookupA fsConfW.files fiW.path = some [1, 2, 3] ∧
     lookupA fsConfW.files (tpOf cfgW fiW) = some [9] ∧ ([9] : Content) ≠ [1, 2, 3] ∧
     (oPre cfgW).isPrefixOf fiW.path = false ∧
     lookupA fsConfW.files (fiW.path ++ str ".xmp") = none ∧
     lookupA fsConfW.files ((splitext fiW.path).1 ++ str ".xmp") = none) ∧
    (∃ km, 2 ≤ km ∧
      ((process_file cfgW fiW fsConfW).2.2 = Outcome.dup km ∨
       (process_file cfgW fiW fsConfW).2.2 = Outcome.transferred km) ∧
      goodAt fsConfW.files fiW.path [1, 2, 3] (tpOf cfgW fiW) km ∧
      (∀ j, 1 ≤ j → j < km → ¬ goodAt fsConfW.files fiW.path [1, 2, 3] (tpOf cfgW fiW) j) ∧
      ((process_file cfgW fiW fsConfW).2.2 = Outcome.transferred km →
        lookupA fsConfW.files (slotPath (tpOf cfgW fiW) km) = none) ∧
      (∀ p c', p ≠ fiW.path → lookupA fsConfW.files p = some c' →
        lookupA (process_file cfgW fiW fsConfW).1.files p = some c')) :=
  ⟨⟨by decide, rfl, rfl, by decide, by decide, by decide, by decide, by decide, by decide⟩,
   C2_suffix_resolution cfgW fiW fsConfW [1, 2, 3] [9] (by decide) rfl rfl
     (by decide) (by decide) (by decide) (by decide) (by decide) (by decide)⟩

theorem procLoop_shape (cfg : Config) (fi : FileInfo) (output nm tp : Path) (fs : FS) :
    ∀ (fuel k : Nat) (fs' : FS) (δ : Delta) (o : Outcome),
      procLoop cfg fi output nm tp fs k fuel = some (fs', δ, o) →
      (∃ km, o = Outcome.dup km) ∨ (∃ km, o = Outcome.transferred km) ∨
      (∃ km, o = Outcome.vanished km) ∨ o = Outcome.raised := by
  intro fuel
  induction fuel with
  | zero => intro k fs' δ o h; simp [procLoop] at h
  | succ f ih =>
    intro k fs' δ o h
    simp only [procLoop] at h
    rcases hc : lookupA fs.files (slotPath tp k) with _ | c
    · rw [hc] at h
      simp only [Option.some.injEq] at h
      have hout : (placeAt cfg fi output nm (slotPath tp k) fs k).2.2 = o :=
        congrArg (fun r => r.2.2) h
      rcases placeAt_shape cfg fi output nm (slotPath tp k) fs k with h1 | h1 | h1
      · exact Or.inr (Or.inl ⟨k, by rw [← hout, h1]⟩)
      · exact Or.inr (Or.inr (Or.inl ⟨k, by rw [← hout, h1]⟩))
      · refine Or.inr (Or.inr (Or.inr ?_))
        rw [h1] at hout
        exact hout.symm
    · rw [hc] at h
      by_cases heq : fi.path = slotPath tp k
      · simp only [heq, if_true] at h
        exact ih (k + 1) fs' δ o h
      · simp only [heq, if_false] at h
        rcases hs : lookupA fs.files fi.path with _ | sc
        · rw [hs] at h
          simp only [Option.some.injEq] at h
          exact Or.inr (Or.inr (Or.inr (congrArg (fun r => r.2.2) h).symm))
        · rw [hs] at h
          by_cases hce : c = sc
          · simp only [hce, if_true, Option.some.injEq] at h
            exact Or.inl ⟨k, (congrArg (fun r => r.2.2) h).symm⟩
          · simp only [hce, if_false] at h
            exact ih (k + 1) fs' δ o h

theorem placeAt_delta (cfg : Config) (fi : FileInfo) (output nm t : Path) (fs : FS) (k : Nat) :
    (cfg.move = true → (placeAt cfg fi output nm t fs k).2.1 = dMoved) ∧
    (cfg.move = false → (cfg.link && !cfg.dry_run) = false →
      (placeAt cfg fi output nm t fs k).2.1 = dCopied) ∧
    (cfg.move = false → (cfg.link && !cfg.dry_run) = true →
      (placeAt cfg fi output nm t fs k).2.1 = Delta.zero) := by
  refine ⟨?_, ?_, ?_⟩
  · intro hm
    unfold placeAt
    by_cases hd : cfg.dry_run = true
    · simp [hm, hd]
    · simp only [Bool.not_eq_true] at hd
      rcases hs : lookupA fs.files fi.path with _ | c <;> simp [hm, hd, hs]
  · intro hm hl
    unfold placeAt
    have h1 : (cfg.move = true) = False := by simp [hm]
    have h2 : ((cfg.link && !cfg.dry_run) = true) = False := by simp [hl]
    simp only [h1, h2, if_false]
    by_cases hd : cfg.dry_run = true
    · simp [hd]
    · simp only [Bool.not_eq_true] at hd
      rcases hs : lookupA fs.files fi.path with _ | c <;> simp [hd, hs]
  · intro hm hl
    unfold placeAt
    have h1 : (cfg.move = true) = False := by simp [hm]
    simp only [h1, if_false, hl, if_true]
    rcases hs : lookupA fs.files fi.path with _ | c <;> simp [hs]

/-- C7 amended: each per-file counter moves exactly once per qualifying event,
where the qualifying event for `files_moved`/`files_copied` is the transfer
attempt — the counter is incremented before `shutil.move`/`shutil.copy2`, so a
vanished-source `FileNotFoundError` is still counted; a real (non-dry-run)
link increments no transfer counter, while a dry-run link falls into the copy
branch and is counted as copied; duplicates, unknown-date skips, type-filter
skips and processed files each bump exactly their own counter. -/
theorem C7_counter_rules (cfg : Config) (fi : FileInfo) (fs fs' : FS) (δ : Delta)
    (o : Outcome) (h : process_file cfg fi fs = (fs', δ, o)) :
    (o = Outcome.xmpSkip → δ = Delta.zero) ∧
    (o = Outcome.typeSkip → δ = ⟨1, 0, 0, 0, 0⟩) ∧
    (o = Outcome.unknownSkip → δ = ⟨1, 0, 1, 0, 0⟩) ∧
    (o = Outcome.raised → δ = Delta.zero) ∧
    (∀ k, o = Outcome.dup k → δ = ⟨1, 1, 0, 0, 0⟩) ∧
    (∀ k, o = Outcome.transferred k ∨ o = Outcome.vanished k →
      (cfg.move = true → δ = ⟨1, 0, 0, 1, 0⟩) ∧
      (cfg.move = false → (cfg.link && !cfg.dry_run) = false → δ = ⟨1, 0, 0, 0, 1⟩) ∧
      (cfg.move = false → (cfg.link && !cfg.dry_run) = true → δ = ⟨1, 0, 0, 0, 0⟩)) := by
  unfold process_file at h
  by_cases hx : (str ".xmp").isSuffixOf fi.path = true
  · simp only [hx, if_true, Prod.mk.injEq] at h
    obtain ⟨-, h2, h3⟩ := h
    subst h2; subst h3
    exact ⟨fun _ => rfl, fun hc => by simp at hc, fun hc => by simp at hc,
      fun hc => by simp at hc, fun k hc => by simp at hc,
      fun k hc => by rcases hc with hc | hc <;> simp at hc⟩
  · simp only [Bool.not_eq_true] at hx
    rw [np_eq] at h
    simp only [hx, Bool.false_eq_true, if_false] at h
    by_cases h1 : (cfg.file_type.isSome && !(decide (cfg.file_type = ftOf fi))) = true
    · simp only [h1, if_true, Prod.mk.injEq] at h
      obtain ⟨-, h2, h3⟩ := h
      subst h2; subst h3
      exact ⟨fun hc => by simp at hc, fun _ => rfl, fun hc => by simp at hc,
        fun hc => by simp at hc, fun k hc => by simp at hc,
        fun k hc => by rcases hc with hc | hc <;> simp at hc⟩
    · simp only [h1, Bool.false_eq_true, if_false] at h
      by_cases h2 : (cfg.skip_unknown && cfg.no_date_dir.isSuffixOf (outOf cfg fi)) = true
      · simp only [h2, if_true, Prod.mk.injEq] at h
        obtain ⟨-, h3, h4⟩ := h
        subst h3; subst h4
        exact ⟨fun hc => by simp at hc, fun hc => by simp at hc, fun _ => rfl,
          fun hc => by simp at hc, fun k hc => by simp at hc,
          fun k hc => by rcases hc with hc | hc <;> simp at hc⟩
      · simp only [h2, Bool.false_eq_true, if_false] at h
        rcases hl : procLoop cfg fi (outOf cfg fi) (nmOf cfg fi) (tpOf cfg fi)
            (mkdirA fs (outOf cfg fi) cfg.dry_run) 1
            ((mkdirA fs (outOf cfg fi) cfg.dry_run).files.length + 1) with _ | r
        · rw [hl] at h
          simp only [Prod.mk.injEq] at h
          obtain ⟨-, h3, h4⟩ := h
          subst h3; subst h4
          exact ⟨fun hc => by simp at hc, fun hc => by simp at hc, fun hc => by simp at hc,
            fun _ => rfl, fun k hc => by simp at hc,
            fun k hc => by rcases hc with hc | hc <;> simp at hc⟩
        · rw [hl] at h
          obtain ⟨fs2, δ2, o2⟩ := r
          have hout := procLoop_out cfg fi (outOf cfg fi) (nmOf cfg fi) (tpOf cfg fi)
            (mkdirA fs (outOf cfg fi) cfg.dry_run)
            ((mkdirA fs (outOf cfg fi) cfg.dry_run).files.length + 1) 1 fs2 δ2 o2
            (Nat.le_refl 1) hl
          by_cases ho2 : o2 = Outcome.raised
          · simp only [ho2, if_true, Prod.mk.injEq] at h
            obtain ⟨-, h3, h4⟩ := h
            subst h3; subst h4
            have hz : δ2 = Delta.zero := (hout.1 ho2).2
            subst hz
            exact ⟨fun hc => by simp at hc, fun hc => by simp at hc, fun hc => by simp at hc,
              fun _ => rfl, fun k hc => by simp at hc,
              fun k hc => by rcases hc with hc | hc <;> simp at hc⟩
          · have hne : (o2 = Outcome.raised) = False := by simp [ho2]
            simp only [hne, if_false, Prod.mk.injEq] at h
            obtain ⟨-, h3, h4⟩ := h
            subst h3; subst h4
            rcases procLoop_shape cfg fi (outOf cfg fi) (nmOf cfg fi) (tpOf cfg fi)
                (mkdirA fs (outOf cfg fi) cfg.dry_run)
                ((mkdirA fs (outOf cfg fi) cfg.dry_run).files.length + 1) 1 fs2 δ2 o2 hl with
              hs | hs | hs | hs
            · obtain ⟨km, rfl⟩ := hs
              have hd2 : δ2 = dDup := (hout.2.1 km rfl).2.2.1
              subst hd2
              exact ⟨fun hc => by simp at hc, fun hc => by simp at hc, fun hc => by simp at hc,
                fun hc => by simp at hc,
                fun k hc => rfl,
                fun k hc => by rcases hc with hc | hc <;> simp at hc⟩
            · obtain ⟨km, rfl⟩ := hs
              have hpl := (hout.2.2 km (Or.inl rfl)).2.2
              have hδ2 : δ2 = (placeAt cfg fi (outOf cfg fi) (nmOf cfg fi)
                  (slotPath (tpOf cfg fi) km) (mkdirA fs (outOf cfg fi) cfg.dry_run) km).2.1 := by
                rw [← hpl]
              have hpd := placeAt_delta cfg fi (outOf cfg fi) (nmOf cfg fi)
                (slotPath (tpOf cfg fi) km) (mkdirA fs (outOf cfg fi) cfg.dry_run) km
              refine ⟨fun hc => by simp at hc, fun hc => by simp at hc, fun hc => by simp at hc,
                fun hc => by simp at hc, fun k hc => by simp at hc, fun k _ => ?_⟩
              refine ⟨?_, ?_, ?_⟩
              · intro hm
                rw [hδ2, hpd.1 hm]; rfl
              · intro hm hlk
                rw [hδ2, hpd.2.1 hm hlk]; rfl
              · intro hm hlk
                rw [hδ2, hpd.2.2 hm hlk]; rfl
            · obtain ⟨km, rfl⟩ := hs
              have hpl := (hout.2.2 km (Or.inr rfl)).2.2
              have hδ2 : δ2 = (placeAt cfg fi (outOf cfg fi) (nmOf cfg fi)
                  (slotPath (tpOf cfg fi) km) (mkdirA fs (outOf cfg fi) cfg.dry_run) km).2.1 := by
                rw [← hpl]
              have hpd := placeAt_delta cfg fi (outOf cfg fi) (nmOf cfg fi)
                (slotPath (tpOf cfg fi) km) (mkdirA fs (outOf cfg fi) cfg.dry_run) km
              refine ⟨fun hc => by simp at hc, fun hc => by simp at hc, fun hc => by simp at hc,
                fun hc => by simp at hc, fun k hc => by simp at hc, fun k _ => ?_⟩
              refine ⟨?_, ?_, ?_⟩
              · intro hm
                rw [hδ2, hpd.1 hm]; rfl
              · intro hm hlk
                rw [hδ2, hpd.2.1 hm hlk]; rfl
              · intro hm hlk
                rw [hδ2, hpd.2.2 hm hlk]; rfl
            · exact absurd hs ho2

/-- Move-mode configuration for the vanished-source counterexample. -/
def cfgMvW : Config := ⟨str "/out", str "unknown", true, false, false, false, false, none⟩

/-- A candidate whose source file does not exist (vanished between discovery
and transfer). -/
def fiGoneW : FileInfo := ⟨str "/in/gone.jpg", some (str "image/jpeg"), DateVal.vnone⟩

/-- C7 as frozen is false: `files_moved` is incremented before `shutil.move`
runs, so a file whose transfer fails with a vanished-source
`FileNotFoundError` is still counted as moved even though nothing was moved. -/
theorem C7_counterexample :
    (process_file cfgMvW fiGoneW fsE).2.1.moved = 1 ∧
    (process_file cfgMvW fiGoneW fsE).2.2 = Outcome.vanished 1 ∧
    (process_file cfgMvW fiGoneW fsE).1.files = fsE.files := by decide

theorem C7_witness :
    (process_file cfgW fiW fsDupW).2.2 = Outcome.dup 1 ∧
    (process_file cfgW fiW fsDupW).2.1 = ⟨1, 1, 0, 0, 0⟩ :=
  ⟨by decide,
   (C7_counter_rules cfgW fiW fsDupW (process_file cfgW fiW fsDupW).1
      (process_file cfgW fiW fsDupW).2.1 (process_file cfgW fiW fsDupW).2.2 rfl).2.2.2.2.1
     1 (by decide)⟩

/-- The same configuration with the dry-run flag replaced. -/
def Config.withDry (c : Config) (b : Bool) : Config :=
  ⟨c.output_dir, c.no_date_dir, c.move, c.link, c.original_filenames, c.skip_unknown,
   b, c.file_type⟩

theorem placeAt_dry_out (cfg : Config) (fi : FileInfo) (output nm t : Path) (fs : FS)
    (k : Nat) (hd : cfg.dry_run = true) :
    (placeAt cfg fi output nm t fs k).2.2 = Outcome.transferred k := by
  unfold placeAt
  by_cases hm : cfg.move = true
  · simp [hm, hd]
  · simp only [Bool.not_eq_true] at hm
    simp [hm, hd]

theorem placeAt_not_raised (cfg : Config) (fi : FileInfo) (output nm t : Path) (fs : FS)
    (k : Nat) (hl : cfg.link = false) :
    (placeAt cfg fi output nm t fs k).2.2 ≠ Outcome.raised := by
  unfold placeAt
  by_cases hm : cfg.move = true
  · by_cases hd : cfg.dry_run = true
    · simp [hm, hd]
    · simp only [Bool.not_eq_true] at hd
      rcases hs : lookupA fs.files fi.path with _ | c <;> simp [hm, hd, hs]
  · simp only [Bool.not_eq_true] at hm
    have hlk : ((cfg.link && !cfg.dry_run) = true) = False := by simp [hl]
    have h1 : (cfg.move = true) = False := by simp [hm]
    simp only [h1, if_false, hlk]
    by_cases hd : cfg.dry_run = true
    · simp [hd]
    · simp only [Bool.not_eq_true] at hd
      rcases hs : lookupA fs.files fi.path with _ | c <;> simp [hd, hs]

theorem procLoop_parallel (cfg : Config) (fi : FileInfo) (output nm tp : Path)
    (fs1 fs2 : FS) (hfiles : fs1.files = fs2.files) (hl : cfg.link = false) :
    ∀ (fuel k : Nat),
      ((procLoop (cfg.withDry true) fi output nm tp fs1 k fuel).map (fun r => r.2.1) =
       (procLoop (cfg.withDry false) fi output nm tp fs2 k fuel).map (fun r => r.2.1)) ∧
      ((procLoop (cfg.withDry true) fi output nm tp fs1 k fuel).map
          (fun r => decide (r.2.2 = Outcome.raised)) =
       (procLoop (cfg.withDry false) fi output nm tp fs2 k fuel).map
          (fun r => decide (r.2.2 = Outcome.raised))) ∧
      (lookupA fs2.files fi.path ≠ none →
       (procLoop (cfg.withDry true) fi output nm tp fs1 k fuel).map (fun r => r.2.2) =
       (procLoop (cfg.withDry false) fi output nm tp fs2 k fuel).map (fun r => r.2.2)) := by
  intro fuel
  induction fuel with
  | zero => intro k; simp [procLoop]
  | succ f ih =>
    intro k
    simp only [procLoop, hfiles]
    rcases hc : lookupA fs2.files (slotPath tp k) with _ | c
    · dsimp only
      simp only [Option.map_some']
      have hδ1 := placeAt_delta (cfg.withDry true) fi output nm (slotPath tp k) fs1 k
      have hδ2 := placeAt_delta (cfg.withDry false) fi output nm (slotPath tp k) fs2 k
      have hl1 : (cfg.withDry true).link = false := hl
      have hl2 : (cfg.withDry false).link = false := hl
      refine ⟨?_, ?_, ?_⟩
      · by_cases hm : cfg.move = true
        · rw [hδ1.1 hm, hδ2.1 hm]
        · simp only [Bool.not_eq_true] at hm
          have hlk1 : ((cfg.withDry true).link && !(cfg.withDry true).dry_run) = false := by
            show (cfg.link && _) = false
            rw [hl]
            rfl
          have hlk2 : ((cfg.withDry false).link && !(cfg.withDry false).dry_run) = false := by
            show (cfg.link && _) = false
            rw [hl]
            rfl
          rw [hδ1.2.1 hm hlk1, hδ2.2.1 hm hlk2]
      · have hn1 := placeAt_not_raised (cfg.withDry true) fi output nm (slotPath tp k) fs1 k hl1
        have hn2 := placeAt_not_raised (cfg.withDry false) fi output nm (slotPath tp k) fs2 k hl2
        simp [hn1, hn2]
      · intro hsrc
        rcases hs : lookupA fs2.files fi.path with _ | sc
        · exact absurd hs hsrc
        · have h1 := placeAt_dry_out (cfg.withDry true) fi output nm (slotPath tp k) fs1 k rfl
          have h2 := placeAt_src_out (cfg.withDry false) fi output nm (slotPath tp k) fs2 k sc
            hs
          rw [h1, h2]
    · dsimp only
      by_cases heq : fi.path = slotPath tp k
      · rw [if_pos heq, if_pos heq]
        exact ih (k + 1)
      · rw [if_neg heq, if_neg heq]
        rcases hs : lookupA fs2.files fi.path with _ | sc
        · dsimp only
          exact ⟨rfl, rfl, fun h => absurd rfl h⟩
        · dsimp only
          by_cases hce : c = sc
          · rw [if_pos hce, if_pos hce]
            exact ⟨rfl, rfl, fun _ => rfl⟩
          · rw [if_neg hce, if_neg hce]
            exact ⟨(ih (k + 1)).1, (ih (k + 1)).2.1,
              fun h => (ih (k + 1)).2.2 (by rw [hs]; simp)⟩

/-- C4 amended: dry-run performs no filesystem mutation whatsoever — no file is
written, moved or linked and no directory is created; for a single file in a
non-link configuration the counter increments equal those of the corresponding
real run (copy/move counters are incremented before the action in both), and
when the source file exists the per-file outcome decision is identical too.
In link mode dry-run counts the file as copied while a real run increments no
transfer counter, so the frozen claim's "identical counters" clause fails
there. -/
theorem C4_dry_run (cfg : Config) (fi : FileInfo) (fs : FS) :
    (cfg.dry_run = true → (process_file cfg fi fs).1 = fs) ∧
    (cfg.link = false →
      (process_file (cfg.withDry true) fi fs).2.1 =
        (process_file (cfg.withDry false) fi fs).2.1) ∧
    (cfg.link = false → lookupA fs.files fi.path ≠ none →
      (process_file (cfg.withDry true) fi fs).2.2 =
        (process_file (cfg.withDry false) fi fs).2.2) := by
  have hkey : ∀ hl : cfg.link = false,
      ((process_file (cfg.withDry true) fi fs).2.1 =
        (process_file (cfg.withDry false) fi fs).2.1) ∧
      (lookupA fs.files fi.path ≠ none →
        (process_file (cfg.withDry true) fi fs).2.2 =
          (process_file (cfg.withDry false) fi fs).2.2) := by
    intro hl
    unfold process_file
    by_cases hx : (str ".xmp").isSuffixOf fi.path = true
    · simp [hx]
    · simp only [Bool.not_eq_true] at hx
      rw [np_eq, np_eq]
      have hout12 : outOf (cfg.withDry true) fi = outOf (cfg.withDry false) fi := rfl
      have hnm12 : nmOf (cfg.withDry true) fi = nmOf (cfg.withDry false) fi := rfl
      have htp12 : tpOf (cfg.withDry true) fi = tpOf (cfg.withDry false) fi := rfl
      have hft12 : ftOf fi = ftOf fi := rfl
      rw [hout12, hnm12, htp12]
      have e1 : ∀ b, (cfg.withDry b).file_type = cfg.file_type := fun _ => rfl
      have e2 : ∀ b, (cfg.withDry b).skip_unknown = cfg.skip_unknown := fun _ => rfl
      have e3 : ∀ b, (cfg.withDry b).no_date_dir = cfg.no_date_dir := fun _ => rfl
      have e4 : (cfg.withDry true).dry_run = true := rfl
      have e5 : (cfg.withDry false).dry_run = false := rfl
      simp only [e1, e2, e3, e4, e5]
      simp only [hx, Bool.false_eq_true, if_false]
      by_cases h1 : (cfg.file_type.isSome && !(decide (cfg.file_type = ftOf fi))) = true
      · simp [h1]
      · simp only [Bool.not_eq_true] at h1
        simp only [h1, Bool.false_eq_true, if_false]
        by_cases h2 : (cfg.skip_unknown &&
            cfg.no_date_dir.isSuffixOf (outOf (cfg.withDry false) fi)) = true
        · simp [h2]
        · simp only [Bool.not_eq_true] at h2
          simp only [h2, Bool.false_eq_true, if_false]
          have hlen1 : (mkdirA fs (outOf (cfg.withDry false) fi) true).files.length =
              fs.files.length := by rw [mkdirA_files]
          have hlen2 : (mkdirA fs (outOf (cfg.withDry false) fi) false).files.length =
              fs.files.length := by rw [mkdirA_files]
          simp only [hlen1, hlen2]
          have hpar := procLoop_parallel cfg fi (outOf (cfg.withDry false) fi)
            (nmOf (cfg.withDry false) fi) (tpOf (cfg.withDry false) fi)
            (mkdirA fs (outOf (cfg.withDry false) fi) true)
            (mkdirA fs (outOf (cfg.withDry false) fi) false)
            (by rw [mkdirA_files, mkdirA_files]) hl
            (fs.files.length + 1) 1
          rcases hr1 : procLoop (cfg.withDry true) fi (outOf (cfg.withDry false) fi)
              (nmOf (cfg.withDry false) fi) (tpOf (cfg.withDry false) fi)
              (mkdirA fs (outOf (cfg.withDry false) fi) true) 1
              (fs.files.length + 1) with _ | r1 <;>
            rcases hr2 : procLoop (cfg.withDry false) fi (outOf (cfg.withDry false) fi)
              (nmOf (cfg.withDry false) fi) (tpOf (cfg.withDry false) fi)
              (mkdirA fs (outOf (cfg.withDry false) fi) false) 1
              (fs.files.length + 1) with _ | r2
          · exact ⟨rfl, fun _ => rfl⟩
          · exfalso
            have hd := hpar.1
            rw [hr1, hr2] at hd
            simp at hd
          · exfalso
            have hd := hpar.1
            rw [hr1, hr2] at hd
            simp at hd
          · have hδ := hpar.1
            have hraise := hpar.2.1
            rw [hr1, hr2] at hδ hraise
            simp only [Option.map_some', Option.some.injEq] at hδ hraise
            constructor
            · show (if r1.2.2 = Outcome.raised then r1
                    else (r1.1, r1.2.1.addProcessed, r1.2.2)).2.1 =
                   (if r2.2.2 = Outcome.raised then r2
                    else (r2.1, r2.2.1.addProcessed, r2.2.2)).2.1
              by_cases ho1 : r1.2.2 = Outcome.raised
              · have ho2 : r2.2.2 = Outcome.raised := by
                  have hd2 : decide (r2.2.2 = Outcome.raised) = true := by
                    rw [← hraise]
                    simp [ho1]
                  exact of_decide_eq_true hd2
                rw [if_pos ho1, if_pos ho2]
                exact hδ
              · have ho2 : ¬ (r2.2.2 = Outcome.raised) := by
                  intro hc
                  refine ho1 ?_
                  have hd1 : decide (r1.2.2 = Outcome.raised) = true := by
                    rw [hraise]
                    simp [hc]
                  exact of_decide_eq_true hd1
                rw [if_neg ho1, if_neg ho2]
                show r1.2.1.addProcessed = r2.2.1.addProcessed
                rw [hδ]
            · intro hsrc
              have hom := hpar.2.2 (by rw [mkdirA_files]; exact hsrc)
              rw [hr1, hr2] at hom
              simp only [Option.map_some', Option.some.injEq] at hom
              show (if r1.2.2 = Outcome.raised then r1
                    else (r1.1, r1.2.1.addProcessed, r1.2.2)).2.2 =
                   (if r2.2.2 = Outcome.raised then r2
                    else (r2.1, r2.2.1.addProcessed, r2.2.2)).2.2
              by_cases ho1 : r1.2.2 = Outcome.raised <;>
                by_cases ho2 : r2.2.2 = Outcome.raised
              · rw [if_pos ho1, if_pos ho2]; exact hom
              · rw [if_pos ho1, if_neg ho2]; exact hom
              · rw [if_neg ho1, if_pos ho2]; exact hom
              · rw [if_neg ho1, if_neg ho2]; exact hom
  refine ⟨process_file_dry cfg fi fs, ?_, ?_⟩
  · intro hl
    exact (hkey hl).1
  · intro hl hsrc
    exact (hkey hl).2 hsrc

/-- Filesystem fixture with only the source file present. -/
def fsSrcW : FS := ⟨[(str "/in/a.jpg", [1, 2, 3])], []⟩

/-- Link-mode configuration (not dry-run). -/
def cfgLnW : Config := ⟨str "/out", str "unknown", false, true, false, false, false, none⟩

/-- C4 as frozen is false: in link mode a dry-run increments `files_copied`
(the dry-run link falls into the copy else-branch of `process_file`) while the
corresponding real run performs the link without incrementing any transfer
counter, so the counters of a dry run and a real run differ. -/
theorem C4_counterexample :
    (process_file (cfgLnW.withDry true) fiW fsSrcW).2.1.copied = 1 ∧
    (process_file (cfgLnW.withDry false) fiW fsSrcW).2.1.copied = 0 ∧
    (process_file (cfgLnW.withDry false) fiW fsSrcW).2.2 = Outcome.transferred 1 := by
  decide

/-- Dry-run variant of the default configuration fixture. -/
def cfgDryW : Config := ⟨str "/out", str "unknown", false, false, false, false, true, none⟩

theorem C4_witness :
    (cfgDryW.dry_run = true ∧ cfgDryW.link = false ∧
     lookupA fsSrcW.files fiW.path ≠ none) ∧
    ((process_file cfgDryW fiW fsSrcW).1 = fsSrcW ∧
     (process_file (cfgDryW.withDry true) fiW fsSrcW).2.1 =
       (process_file (cfgDryW.withDry false) fiW fsSrcW).2.1 ∧
     (process_file (cfgDryW.withDry true) fiW fsSrcW).2.2 =
       (process_file (cfgDryW.withDry false) fiW fsSrcW).2.2) :=
  ⟨⟨rfl, rfl, by decide⟩,
   ⟨(C4_dry_run cfgDryW fiW fsSrcW).1 rfl,
    (C4_dry_run cfgDryW fiW fsSrcW).2.1 rfl,
    (C4_dry_run cfgDryW fiW fsSrcW).2.2 rfl (by decide)⟩⟩

theorem C8_witness :
    (str "*.tmp" ∈ [str "*.tmp"]) ∧
    lookupA (exclude_files [str "a.tmp", str "b.jpg"] [str "*.tmp"]).2.2 (str "*.tmp") =
      some (fnfilter [str "a.tmp", str "b.jpg"] (str "*.tmp")).length :=
  ⟨by decide,
   (C8_exclusion_counts [str "a.tmp", str "b.jpg"] [str "*.tmp"]).2.2.1
     (str "*.tmp") (by decide)⟩

/-! ### Depth-limited walk -/

theorem contains_false_count (nm : Path) (h : nm.contains 47 = false) : nm.count 47 = 0 := by
  refine List.count_eq_zero.mpr ?_
  intro hm
  simp [List.contains, List.elem_eq_mem, hm] at h

theorem count_child (root nm : Path) (h : nm.contains 47 = false) :
    (root ++ 47 :: nm).count 47 = root.count 47 + 1 := by
  rw [List.count_append, List.count_cons_self, contains_false_count nm h]

theorem walk_depth_aux : ∀ n : Nat,
    (∀ (stop : Nat) (root : Path) (t : DTree), sizeOf t ≤ n → root.count 47 ≤ stop →
      namesOkT t = true → ∀ pb ∈ walkT stop root t, pb.1.count 47 ≤ stop) ∧
    (∀ (stop : Nat) (root : Path) (f : DForest), sizeOf f ≤ n → root.count 47 < stop →
      namesOkF f = true → ∀ pb ∈ walkF stop root f, pb.1.count 47 ≤ stop) := by
  intro n
  induction n with
  | zero =>
    constructor
    · intro stop root t ht
      exfalso
      cases t with
      | node fls sub => simp at ht
    · intro stop root f hf
      exfalso
      cases f with
      | fnil => simp at hf
      | fcons nm t rest => simp at hf
  | succ m ih =>
    constructor
    · intro stop root t ht hroot hnames pb hpb
      cases t with
      | node fls sub =>
        simp only [walkT] at hpb
        rcases List.mem_cons.mp hpb with h | h
        · rw [h]
          exact hroot
        · by_cases hle : stop ≤ root.count 47
          · rw [if_pos hle] at h
            simp at h
          · rw [if_neg hle] at h
            have hsz : sizeOf sub ≤ m := by
              simp at ht; omega
            exact ih.2 stop root sub hsz (by omega) (by simpa [namesOkT] using hnames) pb h
    · intro stop root f hf hroot hnames pb hpb
      cases f with
      | fnil => simp [walkF] at hpb
      | fcons nm t rest =>
        simp only [walkF] at hpb
        simp only [namesOkF, Bool.and_eq_true] at hnames
        obtain ⟨⟨hnm, hokt⟩, hokf⟩ := hnames
        rcases List.mem_append.mp hpb with h | h
        · have hsz : sizeOf t ≤ m := by
            simp at hf; omega
          have hcount : (root ++ 47 :: nm).count 47 ≤ stop := by
            rw [count_child root nm (by simpa using hnm)]
            omega
          exact ih.1 stop (root ++ 47 :: nm) t hsz hcount hokt pb h
        · have hsz : sizeOf rest ≤ m := by
            simp at hf; omega
          exact ih.2 stop root rest hsz hroot hokf pb h

/-- C10: with `stop_depth = root.count(os.sep) + d`, the walk emits the batch
of every visited directory first (a directory whose separator count reaches
the limit still emits its own batch), a directory at or beyond the limit has
its subdirectory list cleared so nothing below it is ever visited, and no
emitted batch belongs to a directory deeper than the limit. -/
theorem C10_depth_pruning (d : Nat) (root : Path) (fls : List Path) (sub : DForest)
    (hnames : namesOkF sub = true) :
    ((walkT (root.count 47 + d) root (DTree.node fls sub)).head? = some (root, fls)) ∧
    (∀ pb ∈ walkT (root.count 47 + d) root (DTree.node fls sub),
      pb.1.count 47 ≤ root.count 47 + d) ∧
    (∀ (p : Path) (fls' : List Path) (sub' : DForest), root.count 47 + d ≤ p.count 47 →
      walkT (root.count 47 + d) p (DTree.node fls' sub') = [(p, fls')]) := by
  refine ⟨by simp [walkT], ?_, ?_⟩
  · exact (walk_depth_aux (sizeOf (DTree.node fls sub))).1 (root.count 47 + d) root
      (DTree.node fls sub) (Nat.le_refl _) (by omega) (by simpa [namesOkT] using hnames)
  · intro p fls' sub' hle
    simp [walkT, hle]

/-- Concrete input tree for the depth witness: `/in` with a file at each of the
three nesting levels. -/
def treeW : DForest :=
  DForest.fcons (str "d1")
    (DTree.node [str "f2.jpg"]
      (DForest.fcons (str "d2") (DTree.node [str "f3.jpg"] DForest.fnil) DForest.fnil))
    DForest.fnil

theorem C10_witness :
    (namesOkF treeW = true) ∧
    (((walkT ((str "/in").count 47 + 1) (str "/in")
        (DTree.node [str "f1.jpg"] treeW)).head? = some (str "/in", [str "f1.jpg"])) ∧
     (∀ pb ∈ walkT ((str "/in").count 47 + 1) (str "/in") (DTree.node [str "f1.jpg"] treeW),
       pb.1.count 47 ≤ (str "/in").count 47 + 1) ∧
     (∀ (p : Path) (fls' : List Path) (sub' : DForest),
       (str "/in").count 47 + 1 ≤ p.count 47 →
       walkT ((str "/in").count 47 + 1) p (DTree.node fls' sub') = [(p, fls')])) :=
  ⟨by decide, C10_depth_pruning 1 (str "/in") [str "f1.jpg"] treeW (by decide)⟩

/-! ### Sidecar transfers -/

/-- Off the output tree, `fs` agrees with the initial state `fs₀`. -/
def OffEq (cfg : Config) (fs₀ fs : FS) : Prop :=
  ∀ p, ¬ pfxP (oPre cfg) p → lookupA fs.files p = lookupA fs₀.files p

/-- `fs'` extends `fs`: every stored file keeps its content and every
directory survives. -/
def Ext (fs fs' : FS) : Prop :=
  (∀ p c, lookupA fs.files p = some c → lookupA fs'.files p = some c) ∧
  (∀ d, d ∈ fs.dirs → d ∈ fs'.dirs)

theorem Ext_refl (fs : FS) : Ext fs fs := ⟨fun _ _ h => h, fun _ h => h⟩

theorem Ext_trans {a b c : FS} (h1 : Ext a b) (h2 : Ext b c) : Ext a c :=
  ⟨fun p cc h => h2.1 p cc (h1.1 p cc h), fun d h => h2.2 d (h1.2 d h)⟩

/-- After a run, each candidate holds a duplicate certificate: its destination
directory exists, its source is intact, and some slot holds its content at a
distinct path while every earlier slot is occupied — exactly what makes the
collision loop of a later run stop with a duplicate break. -/
def Cert (cfg : Config) (fs : FS) (fi : FileInfo) : Prop :=
  outOf cfg fi ∈ fs.dirs ∧
  ∃ sc j, 1 ≤ j ∧
    lookupA fs.files fi.path = some sc ∧
    slotPath (tpOf cfg fi) j ≠ fi.path ∧
    lookupA fs.files (slotPath (tpOf cfg fi) j) = some sc ∧
    ∀ i, 1 ≤ i → i < j → ∃ c, lookupA fs.files (slotPath (tpOf cfg fi) i) = some c

theorem Cert_mono {cfg : Config} {fs fs' : FS} {fi : FileInfo}
    (he : Ext fs fs') (hc : Cert cfg fs fi) : Cert cfg fs' fi := by
  obtain ⟨hd, sc, j, hj, hs, hne, hslot, hocc⟩ := hc
  exact ⟨he.2 _ hd, sc, j, hj, he.1 _ _ hs, hne, he.1 _ _ hslot,
    fun i h1 h2 => (hocc i h1 h2).elim (fun c hcc => ⟨c, he.1 _ _ hcc⟩)⟩

/-- Regularity of one candidate relative to the initial state: not itself a
sidecar, source outside the output tree and present, and no sidecar sources
of its own. -/
def C3pre (cfg : Config) (fs₀ : FS) (fi : FileInfo) : Prop :=
  (str ".xmp").isSuffixOf fi.path = false ∧
  (oPre cfg).isPrefixOf fi.path = false ∧
  (lookupA fs₀.files fi.path).isSome = true ∧
  lookupA fs₀.files (fi.path ++ str ".xmp") = none ∧
  lookupA fs₀.files ((splitext fi.path).1 ++ str ".xmp") = none

instance C3pre.dec (cfg : Config) (fs₀ : FS) (fi : FileInfo) : Decidable (C3pre cfg fs₀ fi) := by
  unfold C3pre
  exact inferInstance

theorem c3_step1 (cfg : Config) (fi : FileInfo) (fs₀ fs : FS)
    (hm : cfg.move = false) (hd : cfg.dry_run = false)
    (hft : cfg.file_type = none) (hsu : cfg.skip_unknown = false)
    (hpre : C3pre cfg fs₀ fi) (hoff : OffEq cfg fs₀ fs) :
    Ext fs (process_file cfg fi fs).1 ∧
    OffEq cfg fs₀ (process_file cfg fi fs).1 ∧
    Cert cfg (process_file cfg fi fs).1 fi ∧
    (process_file cfg fi fs).2.2 ≠ Outcome.raised := by
  obtain ⟨hx, hop, hiss, hxa0, hxb0⟩ := hpre
  have hnout : ¬ pfxP (oPre cfg) fi.path := by
    intro hc
    rw [← isPrefixOf_iff, hop] at hc
    exact absurd hc (by simp)
  obtain ⟨sc, hsrc0⟩ : ∃ sc, lookupA fs₀.files fi.path = some sc := by
    rcases h : lookupA fs₀.files fi.path with _ | c
    · rw [h] at hiss; exact absurd hiss (by simp)
    · exact ⟨c, rfl⟩
  have hsrc : lookupA fs.files fi.path = some sc := by
    rw [hoff fi.path hnout]; exact hsrc0
  have hxa : lookupA fs.files (fi.path ++ str ".xmp") = none := by
    rw [hoff _ (not_out_xmp_a cfg fi.path hnout)]; exact hxa0
  have hxb : lookupA fs.files ((splitext fi.path).1 ++ str ".xmp") = none := by
    rw [hoff _ (not_out_xmp_b cfg fi.path hnout)]; exact hxb0
  obtain ⟨km, hk1, hk2, hkg, hkmin, hbr⟩ := process_file_main cfg fi fs sc hx hft hsu hsrc
  set fsd := mkdirA fs (outOf cfg fi) cfg.dry_run with hfsd
  have hfdl : fsd.files = fs.files := mkdirA_files _ _ _
  have hdsub : ∀ d ∈ fs.dirs, d ∈ fsd.dirs := mkdirA_dirs_sub fs (outOf cfg fi) cfg.dry_run
  have hdmem : outOf cfg fi ∈ fsd.dirs := by
    rw [hfsd, hd]
    exact mkdirA_mem fs (outOf cfg fi)
  have hocc_of_min : ∀ i, 1 ≤ i → i < km →
      ∃ c, lookupA fs.files (slotPath (tpOf cfg fi) i) = some c := by
    intro i h1 h2
    have hng := hkmin i h1 h2
    rcases hl : lookupA fs.files (slotPath (tpOf cfg fi) i) with _ | c
    · exact absurd (Or.inl hl) hng
    · exact ⟨c, rfl⟩
  have hslot_src : slotPath (tpOf cfg fi) km ≠ fi.path :=
    fun h => hnout (h ▸ pfx_out_slot cfg fi km)
  rcases hbr with ⟨hfree, hout, hpf⟩ | ⟨hne, hdup, hpf⟩
  · have hsrc' : lookupA fsd.files fi.path = some sc := by rw [hfdl]; exact hsrc
    have hslot_we : slotPath (tpOf cfg fi) km ≠ fi.path ++ str ".xmp" :=
      fun h => (not_out_xmp_a cfg fi.path hnout) (h ▸ pfx_out_slot cfg fi km)
    have hslot_wo : slotPath (tpOf cfg fi) km ≠ (splitext fi.path).1 ++ str ".xmp" :=
      fun h => (not_out_xmp_b cfg fi.path hnout) (h ▸ pfx_out_slot cfg fi km)
    have hnoop := process_xmp_noop cfg (setF fsd (slotPath (tpOf cfg fi) km) sc) fi.path
      (nmOf cfg fi) km (outOf cfg fi)
      (by rw [lookupA_setF, if_neg hslot_we, hfdl]; exact hxa)
      (by rw [lookupA_setF, if_neg hslot_wo, hfdl]; exact hxb)
    have hplace : (placeAt cfg fi (outOf cfg fi) (nmOf cfg fi)
        (slotPath (tpOf cfg fi) km) fsd km).1 = setF fsd (slotPath (tpOf cfg fi) km) sc := by
      by_cases hlk : cfg.link = true
      · rw [placeAt_link cfg fi (outOf cfg fi) (nmOf cfg fi) (slotPath (tpOf cfg fi) km)
          fsd km sc hm hlk hd hsrc']
        exact hnoop
      · have hlk' : cfg.link = false := by
          rcases hb : cfg.link with _ | _
          · rfl
          · exact absurd hb hlk
        rw [placeAt_copy cfg fi (outOf cfg fi) (nmOf cfg fi) (slotPath (tpOf cfg fi) km)
          fsd km sc hm hlk' hd hsrc']
        exact hnoop
    have h1 : (process_file cfg fi fs).1 = setF fsd (slotPath (tpOf cfg fi) km) sc := by
      rw [hpf]
      exact hplace
    have h2 : (process_file cfg fi fs).2.2 = Outcome.transferred km := by
      rw [hpf]
      exact hout
    refine ⟨⟨?_, ?_⟩, ?_, ?_, ?_⟩
    · intro p c hp
      rw [h1, lookupA_setF, if_neg, hfdl]
      · exact hp
      · intro h
        rw [← h] at hp
        rw [hfree] at hp
        exact Option.noConfusion hp
    · intro d hdm
      rw [h1]
      exact hdsub d hdm
    · intro p hpno
      have hpslot : slotPath (tpOf cfg fi) km ≠ p :=
        fun h => hpno (h ▸ pfx_out_slot cfg fi km)
      rw [h1, lookupA_setF, if_neg hpslot, hfdl]
      exact hoff p hpno
    · refine ⟨by rw [h1]; exact hdmem, sc, km, hk1, ?_, hslot_src, ?_, ?_⟩
      · rw [h1, lookupA_setF, if_neg hslot_src, hfdl]
        exact hsrc
      · rw [h1, lookupA_setF, if_pos rfl]
      · intro i hi1 hi2
        obtain ⟨c, hc⟩ := hocc_of_min i hi1 hi2
        have hik : slotPath (tpOf cfg fi) km ≠ slotPath (tpOf cfg fi) i := by
          intro h
          have := slotPath_inj (tpOf cfg fi) km i hk1 hi1 h
          omega
        exact ⟨c, by rw [h1, lookupA_setF, if_neg hik, hfdl]; exact hc⟩
    · rw [h2]
      simp
  · have h1 : (process_file cfg fi fs).1 = fsd := by rw [hpf]
    have h2 : (process_file cfg fi fs).2.2 = Outcome.dup km := by rw [hpf]
    refine ⟨⟨?_, ?_⟩, ?_, ?_, ?_⟩
    · intro p c hp
      rw [h1, hfdl]
      exact hp
    · intro d hdm
      rw [h1]
      exact hdsub d hdm
    · intro p hpno
      rw [h1, hfdl]
      exact hoff p hpno
    · refine ⟨by rw [h1]; exact hdmem, sc, km, hk1, ?_, hne, ?_, ?_⟩
      · rw [h1, hfdl]
        exact hsrc
      · rw [h1, hfdl]
        exact hdup
      · intro i hi1 hi2
        obtain ⟨c, hc⟩ := hocc_of_min i hi1 hi2
        exact ⟨c, by rw [h1, hfdl]; exact hc⟩
    · rw [h2]
      simp

theorem c3_run1 (cfg : Config) (fs₀ : FS)
    (hm : cfg.move = false) (hd : cfg.dry_run = false)
    (hft : cfg.file_type = none) (hsu : cfg.skip_unknown = false) :
    ∀ (fis : List FileInfo) (fs : FS), OffEq cfg fs₀ fs →
      (∀ fi ∈ fis, C3pre cfg fs₀ fi) →
      Ext fs (processAll cfg fis fs).1 ∧ OffEq cfg fs₀ (processAll cfg fis fs).1 ∧
      ∀ fi ∈ fis, Cert cfg (processAll cfg fis fs).1 fi := by
  intro fis
  induction fis with
  | nil =>
    intro fs hoff _
    exact ⟨Ext_refl fs, hoff, fun fi h => absurd h (List.not_mem_nil fi)⟩
  | cons fi rest ih =>
    intro fs hoff hpre
    obtain ⟨he1, ho1, hc1, hnr⟩ :=
      c3_step1 cfg fi fs₀ fs hm hd hft hsu (hpre fi (by simp)) hoff
    have h1 : (processAll cfg (fi :: rest) fs).1 =
        (processAll cfg rest (process_file cfg fi fs).1).1 := by
      simp only [processAll]
      rw [if_neg hnr]
    obtain ⟨he2, ho2, hc2⟩ := ih (process_file cfg fi fs).1 ho1
      (fun g hg => hpre g (by simp [hg]))
    refine ⟨?_, ?_, ?_⟩
    · rw [h1]
      exact Ext_trans he1 he2
    · rw [h1]
      exact ho2
    · intro g hg
      rw [h1]
      rcases List.mem_cons.mp hg with hgfi | hgr
      · subst hgfi
        exact Cert_mono he2 hc1
      · exact hc2 g hgr

theorem c3_step2 (cfg : Config) (fi : FileInfo) (fs : FS)
    (hft : cfg.file_type = none) (hsu : cfg.skip_unknown = false)
    (hx : (str ".xmp").isSuffixOf fi.path = false)
    (hcert : Cert cfg fs fi) :
    ∃ km, process_file cfg fi fs = (fs, Delta.addProcessed dDup, Outcome.dup km) := by
  obtain ⟨hdir, sc, j, hj1, hsrc, hjne, hjsc, hocc⟩ := hcert
  obtain ⟨km, hk1, hk2, hkg, hkmin, hbr⟩ := process_file_main cfg fi fs sc hx hft hsu hsrc
  have hgj : goodAt fs.files fi.path sc (tpOf cfg fi) j := Or.inr ⟨hjne, hjsc⟩
  have hkj : km ≤ j := by
    by_contra hcon
    push_neg at hcon
    exact hkmin j hj1 hcon hgj
  rcases hbr with ⟨hfree, -, -⟩ | ⟨hne, hdup, hpf⟩
  · exfalso
    by_cases hkej : km = j
    · rw [hkej, hjsc] at hfree
      exact Option.noConfusion hfree
    · obtain ⟨c, hcq⟩ := hocc km hk1 (by omega)
      rw [hcq] at hfree
      exact Option.noConfusion hfree
  · refine ⟨km, ?_⟩
    rw [hpf, mkdirA_of_mem fs (outOf cfg fi) cfg.dry_run hdir]

theorem c3_run2 (cfg : Config)
    (hft : cfg.file_type = none) (hsu : cfg.skip_unknown = false) :
    ∀ (fis : List FileInfo) (fs : FS),
      (∀ fi ∈ fis, (str ".xmp").isSuffixOf fi.path = false ∧ Cert cfg fs fi) →
      ∃ os, processAll cfg fis fs = (fs, ⟨fis.length, fis.length, 0, 0, 0⟩, os) ∧
        ∀ o ∈ os, ∃ k, o = Outcome.dup k := by
  intro fis
  induction fis with
  | nil =>
    intro fs _
    exact ⟨[], rfl, fun o h => absurd h (List.not_mem_nil o)⟩
  | cons fi rest ih =>
    intro fs hpre
    obtain ⟨hx, hcert⟩ := hpre fi (by simp)
    obtain ⟨km, hpf⟩ := c3_step2 cfg fi fs hft hsu hx hcert
    obtain ⟨os, hrec, hdos⟩ := ih fs (fun g hg => hpre g (by simp [hg]))
    refine ⟨Outcome.dup km :: os, ?_, ?_⟩
    · have hδ : Delta.add (Delta.addProcessed dDup)
          ⟨rest.length, rest.length, 0, 0, 0⟩ =
          ⟨(fi :: rest).length, (fi :: rest).length, 0, 0, 0⟩ := by
        simp only [Delta.add, Delta.addProcessed, dDup, List.length_cons, Delta.mk.injEq,
          and_true]
        omega
      simp only [processAll, hpf]
      rw [if_neg (by simp), hrec]
      dsimp only
      rw [hδ]
    · intro o ho
      rcases List.mem_cons.mp ho with h | h
      · exact ⟨km, h⟩
      · exact hdos o h

/-- C3: re-running the pipeline over the same candidates against the same
destination, in a real (non-dry) non-move run with every source outside the
output tree, is idempotent: the second run leaves the filesystem exactly as
the first run left it, counts every candidate as processed and as a
duplicate, performs zero copies, moves and links, and records a
duplicate-skip outcome for every file. -/
theorem C3_idempotence (cfg : Config) (fis : List FileInfo) (fs₀ : FS)
    (hm : cfg.move = false) (hd : cfg.dry_run = false)
    (hft : cfg.file_type = none) (hsu : cfg.skip_unknown = false)
    (hpre : ∀ fi ∈ fis, C3pre cfg fs₀ fi) :
    ∃ os₂, processAll cfg fis (processAll cfg fis fs₀).1 =
        ((processAll cfg fis fs₀).1, ⟨fis.length, fis.length, 0, 0, 0⟩, os₂) ∧
      ∀ o ∈ os₂, ∃ k, o = Outcome.dup k := by
  have hoff0 : OffEq cfg fs₀ fs₀ := fun p _ => rfl
  obtain ⟨-, -, hc⟩ := c3_run1 cfg fs₀ hm hd hft hsu fis fs₀ hoff0 hpre
  exact c3_run2 cfg hft hsu fis (processAll cfg fis fs₀).1
    (fun fi hfi => ⟨(hpre fi hfi).1, hc fi hfi⟩)

theorem C3_witness :
    (cfgW.move = false ∧ cfgW.dry_run = false ∧ cfgW.file_type = none ∧
     cfgW.skip_unknown = false ∧ ∀ fi ∈ [fiW], C3pre cfgW fsSrcW fi) ∧
    (∃ os₂, processAll cfgW [fiW] (processAll cfgW [fiW] fsSrcW).1 =
        ((processAll cfgW [fiW] fsSrcW).1, ⟨1, 1, 0, 0, 0⟩, os₂) ∧
      ∀ o ∈ os₂, ∃ k, o = Outcome.dup k) :=
  ⟨⟨rfl, rfl, rfl, rfl, by decide⟩,
   C3_idempotence cfgW [fiW] fsSrcW rfl rfl rfl rfl (by decide)⟩

end Phockup
